import Mathlib

/-!
Verification development for the leanclient protocol engine.

This file gives a shallow embedding of the client-side protocol engine:
the per-file synchronization state machine (`file_manager.py`), the async
base client (`base_client.py`), the thin synchronous client (`client.py`),
the retry-until-stable drivers and the message-pump shutdown logic, and
proves properties of the embedded operations.

Modelling conventions, used throughout:
- Python dicts (which preserve insertion order) are modelled as association
  lists; assignment updates the first matching key in place and otherwise
  appends, deletion removes the key, mirroring dict semantics.
- URIs and local paths are in bijection via the fixed project prefix
  (`local_to_uri` / `_uri_to_local` are inverse prefix operations), so the
  embedding identifies them and keys everything by local path.
- Wall-clock fields (`last_activity`, sleeps, condition-variable deadlines)
  only influence timing, never which state is reached on the paths modelled
  here, and are omitted.
- The filesystem is a total function `disk : String → String` from relative
  path to (newline-normalized) content.
- `apply_changes_to_text` is imported from `utils` but the snapshot of
  `utils.py` does not contain it; it is a pure deterministic text transform,
  modelled as an uninterpreted parameter `applyChanges`.
-/

namespace leanclient

/-- A diagnostic record as stored in `FileState.diagnostics`: the engine only
ever inspects the `message` and `severity` fields of a diagnostic. -/
structure Diagnostic where
  message : String
  severity : Option Int := none
  deriving DecidableEq, Repr

/-- One entry of the `processing` array of a `$/lean/fileProgress`
notification; the engine only reads its `kind` field. -/
structure ProgressInfo where
  kind : Int
  deriving DecidableEq, Repr

/-- The edit value object (`utils.DocumentContentChange`):
text plus (line, col) start and end positions. -/
structure DocumentContentChange where
  text : String
  start : Nat × Nat
  endPos : Nat × Nat
  deriving DecidableEq, Repr

/-- Outgoing protocol traffic relevant to the file state machine.
`dependencyBuildMode` is `none` for the thin sync client, which sends no
such field. -/
inductive Msg where
  | didOpen (path : String) (text : String) (version : Int)
      (dependencyBuildMode : Option String)
  | didClose (path : String)
  | didChange (path : String) (version : Int)
  | waitForDiagnostics (path : String) (version : Int)
  deriving DecidableEq, Repr

section AssocList

variable {κ : Type} {α : Type} [DecidableEq κ]

/-- Lookup in an insertion-ordered dict modelled as an association list. -/
def alookup : List (κ × α) → κ → Option α
  | [], _ => none
  | (k1, v1) :: rest, k => if k1 = k then some v1 else alookup rest k

/-- Dict assignment: update the first occurrence in place, else append
(Python dicts keep the original insertion position on overwrite). -/
def aset : List (κ × α) → κ → α → List (κ × α)
  | [], k, v => [(k, v)]
  | (k1, v1) :: rest, k, v =>
    if k1 = k then (k, v) :: rest else (k1, v1) :: aset rest k v

/-- Dict deletion. -/
def aerase (m : List (κ × α)) (k : κ) : List (κ × α) :=
  m.filter (fun kv => kv.1 ≠ k)

/-- The keys of the dict, in insertion order. -/
def keys (m : List (κ × α)) : List κ := m.map Prod.fst

/-- Delete every key of `ps` from the dict. -/
def eraseAll : List (κ × α) → List κ → List (κ × α)
  | m, [] => m
  | m, p :: rest => eraseAll (aerase m p) rest

end AssocList

/-- The mutable state of an open Lean file (`file_manager.FileState`).
The `last_activity` timestamp is omitted (wall clock only). -/
structure FileState where
  uri : String
  content : String
  version : Int := 0
  diagnostics : List Diagnostic := []
  diagnostics_version : Int := -1
  processing : Bool := true
  error : Option String := none
  fatal_error : Bool := false
  complete : Bool := false
  close_pending : Bool := false
  close_ready : Bool := false
  dependency_rebuild_attempted : Bool := false
  deriving DecidableEq, Repr

/-- `FileState.reset_after_change`: reset diagnostics-related state after a
content change. -/
def FileState.reset_after_change (st : FileState) : FileState :=
  { st with
    diagnostics := []
    diagnostics_version := st.version - 1
    processing := true
    error := none
    fatal_error := false
    complete := false
    close_pending := false
    close_ready := false }

/-- State owned by `LSPFileManager`: the bound, the insertion-ordered map of
open files, and the recently-closed set. -/
structure ManagerState where
  max_opened_files : Nat
  opened_files : List (String × FileState) := []
  recently_closed : List String := []
  deriving DecidableEq, Repr

/-- Whether `pat` occurs as a contiguous substring of `s` (the Python
`pat in s` test), on character lists. -/
def containsSub (pat : List Char) : List Char → Bool
  | [] => pat.isEmpty
  | c :: rest => pat.isPrefixOf (c :: rest) || containsSub pat rest

/-- The auto-rebuild test inside `handle_publish_diagnostics`: a diagnostic
with severity 1 whose message contains "Imports are out of date". -/
def importsOutOfDate (d : Diagnostic) : Bool :=
  d.severity == some 1 && containsSub "Imports are out of date".data d.message.data

/-- A fresh `FileState` as created by `_open_new_files`
(`FileState(uri=uri, content=txt)`, all other fields defaulted). -/
def freshFileState (path text : String) : FileState :=
  { uri := path, content := text }

namespace FM

/-- `handle_publish_diagnostics`: the permanent handler for
`textDocument/publishDiagnostics`. `versionParam` is the optional `version`
field of the params (defaulting to `-2`); the returned message list is the
didClose/didOpen pair emitted on the one-time stale-imports rebuild. -/
def handle_publish_diagnostics (s : ManagerState) (path : String)
    (diagnostics : List Diagnostic) (versionParam : Option Int) :
    ManagerState × List Msg :=
  let diag_version : Int := versionParam.getD (-2)
  match alookup s.opened_files path with
  | none => (s, [])
  | some st =>
    if st.diagnostics_version ≤ diag_version then
      if st.error = none then
        let st1 : FileState :=
          { st with
            diagnostics := diagnostics
            diagnostics_version := diag_version
            close_ready :=
              if st.close_pending && diagnostics.isEmpty then true
              else st.close_ready }
        let needs_rebuild :=
          !st.dependency_rebuild_attempted && diagnostics.any importsOutOfDate
        if needs_rebuild then
          let st2 := { st1 with dependency_rebuild_attempted := true }
          let st3 :=
            FileState.reset_after_change { st2 with version := st2.version + 1 }
          ({ s with opened_files := aset s.opened_files path st3 },
            [Msg.didClose path,
              Msg.didOpen path st3.content st3.version (some "once")])
        else
          ({ s with opened_files := aset s.opened_files path st1 }, [])
      else (s, [])
    else (s, [])

/-- The fatal-error test of `handle_file_progress`:
`processing` nonempty and its last entry has `kind == 2`. -/
def fatalLast (processing : List ProgressInfo) : Bool :=
  match processing.getLast? with
  | some e => e.kind == 2
  | none => false

/-- `handle_file_progress`: the permanent handler for `$/lean/fileProgress`. -/
def handle_file_progress (s : ManagerState) (path : String)
    (processing : List ProgressInfo) : ManagerState :=
  match alookup s.opened_files path with
  | none => s
  | some st =>
    let st1 :=
      if fatalLast processing then
        { st with fatal_error := true, processing := false, complete := true }
      else st
    let st2 := if processing.isEmpty then { st1 with processing := false } else st1
    { s with opened_files := aset s.opened_files path st2 }

/-- `update_file`: apply the changes to the cached text, bump the version,
reset the diagnostics state, and send a `didChange` carrying the new
version; raises `FileNotFoundError` for an untracked path before mutating
anything. -/
def update_file (applyChanges : String → List DocumentContentChange → String)
    (s : ManagerState) (path : String) (changes : List DocumentContentChange) :
    Except String (ManagerState × List Msg) :=
  match alookup s.opened_files path with
  | none => .error "FileNotFoundError"
  | some st =>
    let text := applyChanges st.content changes
    let st1 :=
      FileState.reset_after_change { st with content := text, version := st.version + 1 }
    .ok ({ s with opened_files := aset s.opened_files path st1 },
      [Msg.didChange path st1.version])

/-- `_open_new_files`: for each path, read the content from disk, register a
fresh `FileState` (discarding the path from the recently-closed set) and
send a `didOpen` with version 0. -/
def open_new_files (disk : String → String) (mode : String) :
    ManagerState → List String → ManagerState × List Msg
  | s, [] => (s, [])
  | s, p :: rest =>
    let txt := disk p
    let s1 : ManagerState :=
      { s with
        recently_closed := s.recently_closed.filter (· ≠ p)
        opened_files := aset s.opened_files p (freshFileState p txt) }
    let r := open_new_files disk mode s1 rest
    (r.1, Msg.didOpen p txt 0 (some mode) :: r.2)

/-- Set `close_pending := true, close_ready := false` on each listed path
(the blocking branch of `close_files`). -/
def setClosePending : List (String × FileState) → List String →
    List (String × FileState)
  | m, [] => m
  | m, p :: rest =>
    match alookup m p with
    | some st =>
      setClosePending
        (aset m p { st with close_pending := true, close_ready := false }) rest
    | none => setClosePending m rest

/-- Add each path to the recently-closed set. -/
def addRecentlyClosed : List String → List String → List String
  | r, [] => r
  | r, p :: rest => addRecentlyClosed (if p ∈ r then r else r ++ [p]) rest

/-- `close_files`: raises `FileNotFoundError` if any path is untracked,
before sending anything and before removing any state; otherwise marks the
close handshake, records the paths as recently closed, sends `didClose` for
each, and removes the states from the map.  The blocking wait on the close
condition variable is a bounded wait that (with or without a timeout) is
followed by the same flag reset and deletion, so it has no effect on the
final state; concurrent notification delivery is modelled as separate
engine steps. -/
def close_files (s : ManagerState) (paths : List String) (blocking : Bool) :
    Except String (ManagerState × List Msg) :=
  if paths.any (fun p => (alookup s.opened_files p).isNone) then
    .error "FileNotFoundError"
  else
    let m1 := if blocking then setClosePending s.opened_files paths else s.opened_files
    let rc := addRecentlyClosed s.recently_closed paths
    let msgs := paths.map Msg.didClose
    .ok ({ s with opened_files := eraseAll m1 paths, recently_closed := rc }, msgs)

/-- The number of lines of a text as Python `str.splitlines` counts them on
newline-normalized content (a trailing newline does not start a new line). -/
def splitlinesCount (s : String) : Nat :=
  let parts := s.splitOn "\n"
  if parts.getLast? = some "" then parts.length - 1 else parts.length

/-- The already-open branch of `open_files` with `force_reopen = False`:
for each already-open path, compare the on-disk content with the cached
content and, if different, route a full-document replace edit through
`update_file`. -/
def sync_already_open (applyChanges : String → List DocumentContentChange → String)
    (disk : String → String) :
    ManagerState → List String → Except String (ManagerState × List Msg)
  | s, [] => .ok (s, [])
  | s, p :: rest =>
    match alookup s.opened_files p with
    | none => .error "KeyError"
    | some st =>
      let new_content := disk p
      if st.content = new_content then sync_already_open applyChanges disk s rest
      else
        let change : DocumentContentChange :=
          { text := new_content, start := (0, 0),
            endPos := (splitlinesCount st.content, 0) }
        match update_file applyChanges s p [change] with
        | .error e => .error e
        | .ok (s1, msgs) =>
          match sync_already_open applyChanges disk s1 rest with
          | .error e => .error e
          | .ok (s2, msgs2) => .ok (s2, msgs ++ msgs2)

/-- The handling of already-tracked paths inside `open_files`: with
`force_reopen` they are closed and appended to the list of files to open
fresh; otherwise they are synced from disk via `sync_already_open`.  The
third component is the list of files to pass to `_open_new_files`. -/
def reconcile_tracked (applyChanges : String → List DocumentContentChange → String)
    (disk : String → String) (s : ManagerState) (paths : List String)
    (force_reopen : Bool) :
    Except String (ManagerState × List Msg × List String) :=
  let new_files := paths.filter (fun p => (alookup s.opened_files p).isNone)
  let already_open := paths.filter (fun p => (alookup s.opened_files p).isSome)
  if already_open.isEmpty then .ok (s, [], new_files)
  else if force_reopen then
    match close_files s already_open true with
    | .error e => .error e
    | .ok (s1, msgs) => .ok (s1, msgs, new_files ++ already_open)
  else
    match sync_already_open applyChanges disk s already_open with
    | .error e => .error e
    | .ok (s1, msgs) => .ok (s1, msgs, new_files)

/-- The eviction at the end of `open_files`: while the map is over the
bound, the insertion-oldest tracked paths not in the current batch are
closed (via `close_files`). -/
def evict_overflow (s2 : ManagerState) (paths : List String) :
    Except String (ManagerState × List Msg) :=
  let remove_count := s2.opened_files.length - s2.max_opened_files
  if remove_count = 0 then .ok (s2, [])
  else
    let removable :=
      ((keys s2.opened_files).filter (fun p => decide (p ∉ paths))).take
        remove_count
    close_files s2 removable true

/-- `open_files`: rejects the batch if it exceeds `max_opened_files` (before
doing anything else); syncs or force-reopens the already-tracked paths,
opens the paths not already tracked, and finally evicts the
insertion-oldest tracked paths not in the current batch until the map is
back within the bound. -/
def open_files (applyChanges : String → List DocumentContentChange → String)
    (disk : String → String) (s : ManagerState) (paths : List String)
    (mode : String) (force_reopen : Bool) :
    Except String (ManagerState × List Msg) :=
  if s.max_opened_files < paths.length then
    .error "RuntimeError: too many open files"
  else
    match reconcile_tracked applyChanges disk s paths force_reopen with
    | .error e => .error e
    | .ok (s1, msgs1, new_files2) =>
      let r := open_new_files disk mode s1 new_files2
      match evict_overflow r.1 paths with
      | .error e => .error e
      | .ok (s3, msgs3) => .ok (s3, msgs1 ++ r.2 ++ msgs3)

/-- The fate of one `textDocument/waitForDiagnostics` request issued by the
wait algorithm: the future resolves successfully, resolves with an error,
or never resolves within the inactivity window. -/
inductive WaitOutcome where
  | futureOk
  | futureErr (msg : String)
  | timeout
  deriving DecidableEq, Repr

/-- The entry check of `_wait_for_diagnostics`: for each path, mark
`complete` if it is not complete, not processing, and the diagnostics
version has caught up with the file version. -/
def waitPrecheck : List (String × FileState) → List String →
    List (String × FileState)
  | m, [] => m
  | m, p :: rest =>
    match alookup m p with
    | some st =>
      if !st.complete && !st.processing &&
          decide (st.version ≤ st.diagnostics_version) then
        waitPrecheck (aset m p { st with complete := true }) rest
      else waitPrecheck m rest
    | none => waitPrecheck m rest

/-- The poll phase of `_wait_for_diagnostics`, applied to the paths whose
`waitForDiagnostics` request was sent: a successfully resolved future marks
the file complete, a failed one stores the error, clears `processing` and
marks complete, and a timeout leaves the state alone (the loop gives up
with a warning).  Completion via concurrently delivered notifications is
modelled as separate engine steps. -/
def applyWaitOutcome (outcome : String → WaitOutcome) :
    List (String × FileState) → List String → List (String × FileState)
  | m, [] => m
  | m, p :: rest =>
    let m1 :=
      match alookup m p, outcome p with
      | some st, .futureOk => aset m p { st with complete := true }
      | some st, .futureErr e =>
        aset m p { st with error := some e, processing := false, complete := true }
      | _, _ => m
    applyWaitOutcome outcome m1 rest

/-- `_wait_for_diagnostics`: raises `FileNotFoundError` if any path is
untracked; runs the entry completeness check; sends a
`waitForDiagnostics(uri, version)` request for each path still incomplete;
then the poll loop settles each such path according to its request's
fate. -/
def wait_for_diagnostics (outcome : String → WaitOutcome) (s : ManagerState)
    (paths : List String) : Except String (ManagerState × List Msg) :=
  if paths.any (fun p => (alookup s.opened_files p).isNone) then
    .error "FileNotFoundError"
  else
    let m1 := waitPrecheck s.opened_files paths
    let needing := paths.filter (fun p =>
      match alookup m1 p with
      | some st => !st.complete
      | none => false)
    let msgs := needing.map (fun p =>
      Msg.waitForDiagnostics p ((alookup m1 p).elim 0 FileState.version))
    let m2 := applyWaitOutcome outcome m1 needing
    .ok ({ s with opened_files := m2 }, msgs)

/-- The return-value selection at the end of `get_diagnostics`: the stored
error if set, else a single synthesized fatal-error diagnostic if
`fatal_error` fired with no diagnostics, else the stored diagnostics. -/
def selectDiags (st : FileState) : List Diagnostic :=
  match st.error with
  | some e => [{ message := e }]
  | none =>
    if st.fatal_error && st.diagnostics.isEmpty then
      [{ message := "leanclient: Received LeanFileProgressKind.fatalError." }]
    else st.diagnostics

/-- `get_diagnostics`: open the file if untracked; if its state is already
complete skip the wait entirely; otherwise run the diagnostics wait
algorithm; finally return the selection of the resulting state. -/
def get_diagnostics (applyChanges : String → List DocumentContentChange → String)
    (disk : String → String) (outcome : String → WaitOutcome)
    (s : ManagerState) (path : String) :
    Except String (ManagerState × List Msg × List Diagnostic) :=
  let opened : Except String (ManagerState × List Msg) :=
    if (alookup s.opened_files path).isNone then
      open_files applyChanges disk s [path] "never" false
    else .ok (s, [])
  match opened with
  | .error e => .error e
  | .ok (s1, msgs1) =>
    match alookup s1.opened_files path with
    | none => .error "KeyError"
    | some st =>
      if st.complete then .ok (s1, msgs1, selectDiags st)
      else
        match wait_for_diagnostics outcome s1 [path] with
        | .error e => .error e
        | .ok (s2, msgs2) =>
          match alookup s2.opened_files path with
          | none => .error "KeyError"
          | some st2 => .ok (s2, msgs1 ++ msgs2, selectDiags st2)

end FM

/-- A primitive step of the file-manager engine: the two permanent
notification handlers, the public file operations, and the two ways the
diagnostics wait algorithm settles a file (the completeness check against
the wait's target version, and the resolution of its `waitForDiagnostics`
future — `none` for success, `some e` for failure). -/
inductive Op where
  | publish (path : String) (diags : List Diagnostic) (versionParam : Option Int)
  | progress (path : String) (entries : List ProgressInfo)
  | update (path : String) (changes : List DocumentContentChange)
  | openF (paths : List String) (mode : String) (forceReopen : Bool)
  | closeF (paths : List String) (blocking : Bool)
  | waitCheck (path : String) (target : Int)
  | waitFuture (path : String) (outcome : Option String)
  deriving DecidableEq, Repr

/-- The state reached after one engine step (an operation that raises leaves
the state unchanged: each raising operation validates before mutating). -/
def stepOp (applyChanges : String → List DocumentContentChange → String)
    (disk : String → String) (op : Op) (s : ManagerState) : ManagerState :=
  match op with
  | .publish p d v => (FM.handle_publish_diagnostics s p d v).1
  | .progress p e => FM.handle_file_progress s p e
  | .update p c =>
    match FM.update_file applyChanges s p c with
    | .ok r => r.1
    | .error _ => s
  | .openF ps m fr =>
    match FM.open_files applyChanges disk s ps m fr with
    | .ok r => r.1
    | .error _ => s
  | .closeF ps b =>
    match FM.close_files s ps b with
    | .ok r => r.1
    | .error _ => s
  | .waitCheck p tv =>
    match alookup s.opened_files p with
    | some st =>
      if !st.complete && !st.processing && decide (tv ≤ st.diagnostics_version) then
        { s with opened_files := aset s.opened_files p { st with complete := true } }
      else s
    | none => s
  | .waitFuture p out =>
    match alookup s.opened_files p with
    | some st =>
      let st1 :=
        match out with
        | none => { st with complete := true }
        | some e =>
          { st with error := some e, processing := false, complete := true }
      { s with opened_files := aset s.opened_files p st1 }
    | none => s

/-- Run a sequence of engine steps. -/
def runOps (applyChanges : String → List DocumentContentChange → String)
    (disk : String → String) : List Op → ManagerState → ManagerState
  | [], s => s
  | op :: rest, s => runOps applyChanges disk rest (stepOp applyChanges disk op s)

/-- The protocol assumption on the environment: a `publishDiagnostics`
notification never reports a diagnostics version beyond the file's current
version (the server can only echo versions the client sent).  Every other
step is unrestricted. -/
def opRespectsVersions (s : ManagerState) : Op → Bool
  | .publish p _ v =>
    match alookup s.opened_files p with
    | some st => decide (v.getD (-2) ≤ st.version)
    | none => true
  | _ => true

/-- Whether the operation closes-and-reopens the given path
(`open_files` with `force_reopen = True` on a batch containing it). -/
def opForceReopens (p : String) : Op → Bool
  | .openF ps _ fr => fr && ps.contains p
  | _ => false

/-- The internal invariant of a file's state: its diagnostics snapshot never
claims a version beyond the file's own version. -/
def diagVersionLE (s : ManagerState) (p : String) : Bool :=
  match alookup s.opened_files p with
  | some st => decide (st.diagnostics_version ≤ st.version)
  | none => true

/-- The exact condition under which one engine step turns a tracked file's
`complete` flag from false to true: a fatal fileProgress notification for
the path, resolution of the path's `waitForDiagnostics` future (success or
failure), or the wait loop's completeness check passing (`processing`
cleared and the diagnostics version at or beyond the wait's target
version). -/
def completeTrigger (p : String) (st : FileState) : Op → Bool
  | .progress q entries => q == p && FM.fatalLast entries
  | .waitCheck q tv =>
    q == p && (!st.processing && decide (tv ≤ st.diagnostics_version))
  | .waitFuture q _ => q == p
  | _ => false

/-- A trace of engine steps along which the protocol assumption holds, the
given path is never force-reopened, and the path stays tracked after every
step. -/
def traceOK (applyChanges : String → List DocumentContentChange → String)
    (disk : String → String) (p : String) : ManagerState → List Op → Bool
  | _, [] => true
  | s, op :: rest =>
    opRespectsVersions s op && !opForceReopens p op &&
      (alookup (stepOp applyChanges disk op s).opened_files p).isSome &&
      traceOK applyChanges disk p (stepOp applyChanges disk op s) rest

namespace BC

/-- State owned by the async `BaseLeanLSPClient` file layer: three parallel
insertion-ordered maps (`files_finished`, `files_diagnostics`,
`files_content`); the wall-clock `files_last_update` map is omitted. -/
structure BaseState where
  max_opened_files : Nat
  files_finished : List (String × Int) := []
  files_diagnostics : List (String × Option (List Diagnostic)) := []
  files_content : List (String × String) := []
  deriving DecidableEq, Repr

/-- `BaseLeanLSPClient.close_files`: silently drops untracked paths, sends
`didClose` for the tracked ones and deletes them from every map. -/
def close_files (s : BaseState) (paths : List String) : BaseState × List Msg :=
  let tracked := paths.filter (fun p => (alookup s.files_finished p).isSome)
  ({ s with
      files_finished := eraseAll s.files_finished tracked
      files_diagnostics := eraseAll s.files_diagnostics tracked
      files_content := eraseAll s.files_content tracked },
    tracked.map Msg.didClose)

/-- `BaseLeanLSPClient._open_new_files`: record the disk content and send a
`didOpen` (version 1, dependencyBuildMode "always") for each path. -/
def open_new_files (disk : String → String) :
    BaseState → List String → BaseState × List Msg
  | s, [] => (s, [])
  | s, p :: rest =>
    let txt := disk p
    let s1 := { s with files_content := aset s.files_content p txt }
    let r := open_new_files disk s1 rest
    (r.1, Msg.didOpen p txt 1 (some "always") :: r.2)

/-- Register the bookkeeping entries for new files
(`files_finished[p] = -1`, `files_diagnostics[p] = None`). -/
def registerNew : BaseState → List String → BaseState
  | s, [] => s
  | s, p :: rest =>
    registerNew
      { s with
        files_finished := aset s.files_finished p (-1)
        files_diagnostics := aset s.files_diagnostics p none } rest

/-- `BaseLeanLSPClient.open_files`: rejects the batch if it exceeds
`max_opened_files` (first statement, before anything is sent or recorded);
registers and opens the paths not already tracked; then evicts the
insertion-oldest tracked paths not in the current batch until the map is
back within the bound. -/
def open_files (disk : String → String) (s : BaseState) (paths : List String) :
    Except String (BaseState × List Msg) :=
  if s.max_opened_files < paths.length then
    .error "RuntimeError: too many open files"
  else
    let new_files := paths.filter (fun p => (alookup s.files_finished p).isNone)
    let s1 := registerNew s new_files
    let r := open_new_files disk s1 new_files
    let s2 := r.1
    let remove_count := s2.files_finished.length - s2.max_opened_files
    if remove_count = 0 then .ok (s2, r.2)
    else
      let removable :=
        ((keys s2.files_finished).filter (fun p => decide (p ∉ paths))).take
          remove_count
      let c := close_files s2 removable
      .ok (c.1, r.2 ++ c.2)

end BC

namespace SC

/-- State owned by the thin synchronous `LeanLSPClient`: one
insertion-ordered map from path to that file's cached diagnostics. -/
structure ClientState where
  max_opened_files : Nat
  opened_files : List (String × List Diagnostic) := []
  deriving DecidableEq, Repr

/-- `LeanLSPClient.close_files`: silently drops untracked paths, sends
`didClose` for the tracked ones and deletes them (the blocking branch then
waits for the corresponding diagnostics pushes, which does not change
client state). -/
def close_files (s : ClientState) (paths : List String) : ClientState × List Msg :=
  let tracked := paths.filter (fun p => (alookup s.opened_files p).isSome)
  ({ s with opened_files := eraseAll s.opened_files tracked },
    tracked.map Msg.didClose)

/-- Record the diagnostics obtained for freshly opened files
(`opened_files.update(zip(new_files, diagnostics))`). -/
def recordDiags (env : String → List Diagnostic) :
    List (String × List Diagnostic) → List String →
    List (String × List Diagnostic)
  | m, [] => m
  | m, p :: rest => recordDiags env (aset m p (env p)) rest

/-- `LeanLSPClient.open_files`: a batch beyond `max_opened_files` only
prints a warning — the call proceeds regardless.  New files are opened with
a `didOpen` (version 1, no dependencyBuildMode field) and their diagnostics
(delivered by `_wait_for_diagnostics`, modelled as the environment `env`)
are cached; then the oldest tracked paths not in the current batch are
evicted until the map is within the bound. -/
def open_files (disk : String → String) (env : String → List Diagnostic)
    (s : ClientState) (paths : List String) :
    ClientState × List Msg × List (Option (List Diagnostic)) :=
  let new_files := paths.filter (fun p => (alookup s.opened_files p).isNone)
  let msgs := new_files.map (fun p => Msg.didOpen p (disk p) 1 none)
  let s1 := { s with opened_files := recordDiags env s.opened_files new_files }
  let remove_count := s1.opened_files.length - s1.max_opened_files
  let step2 :=
    if remove_count = 0 then (s1, ([] : List Msg))
    else
      close_files s1
        (((keys s1.opened_files).filter (fun p => decide (p ∉ paths))).take
          remove_count)
  (step2.1, msgs ++ step2.2, paths.map (fun p => alookup step2.1.opened_files p))

end SC

section Retry

variable {R : Type} [DecidableEq R]

/-- The retry loop of the synchronous `LSPFileManager._send_request_retry`:
`prev = none` models the initial sentinel (a fresh magic string equal to no
response); an identical result increments the counter and the loop breaks
once it exceeds `max_retries` (strict comparison), a differing result
resets the counter to zero.  `resp n` is the server's answer to the n-th
underlying request; the result pairs the returned value with the number of
underlying requests made; `fuel` bounds the loop (the source spins forever
on a never-stabilizing stream). -/
def syncRetryLoop (resp : Nat → R) (max_retries : Nat) :
    Nat → Nat → Option R → Nat → Option (R × Nat)
  | 0, _, _, _ => none
  | fuel + 1, count, prev, retry_count =>
    let r := resp count
    if some r = prev then
      if max_retries < retry_count + 1 then some (r, count + 1)
      else syncRetryLoop resp max_retries fuel (count + 1) prev (retry_count + 1)
    else syncRetryLoop resp max_retries fuel (count + 1) (some r) 0

/-- `_send_request_retry` run from its initial sentinel state. -/
def send_request_retry_sync (resp : Nat → R) (max_retries fuel : Nat) :
    Option (R × Nat) :=
  syncRetryLoop resp max_retries fuel 0 none 0

/-- The retry loop of the async `BaseLeanLSPClient.send_request_retry`:
identical to the synchronous one except that it breaks as soon as the
counter reaches `retries` (non-strict comparison). -/
def asyncRetryLoop (resp : Nat → R) (retries : Nat) :
    Nat → Nat → Option R → Nat → Option (R × Nat)
  | 0, _, _, _ => none
  | fuel + 1, count, prev, retry_count =>
    let r := resp count
    if some r = prev then
      if retries ≤ retry_count + 1 then some (r, count + 1)
      else asyncRetryLoop resp retries fuel (count + 1) prev (retry_count + 1)
    else asyncRetryLoop resp retries fuel (count + 1) (some r) 0

/-- `send_request_retry` run from its initial sentinel state. -/
def send_request_retry_async (resp : Nat → R) (retries fuel : Nat) :
    Option (R × Nat) :=
  asyncRetryLoop resp retries fuel 0 none 0

end Retry

namespace Pump

/-- The state of one entry of the pending-request table: an unresolved
future, one resolved with a response, or a cancelled one. -/
inductive FutureState where
  | pending
  | resolved (result : String)
  | cancelled
  deriving DecidableEq, Repr

/-- The pending-request table of one async client instance. -/
structure PumpState where
  pending : List (Nat × FutureState) := []
  deriving DecidableEq, Repr

/-- `Future.cancel()`: a no-op on an already-settled future. -/
def cancelFuture : FutureState → FutureState
  | .pending => .cancelled
  | fs => fs

/-- The pending-table effect of a `BaseLeanLSPClient.close` call that runs
to completion: cancel every future in the table
(`for future in self.pending.values(): future.cancel()`). This loop sits
after `await asyncio.gather(*self.tasks)`, so it is reached exactly when
that gather finishes — which happens when `close` is called from outside
the gathered reader/stderr tasks (the cancelled tasks catch their
`CancelledError` and break, the gather completes, and the loop runs). -/
def closeClient (s : PumpState) : PumpState :=
  { pending := s.pending.map (fun kv => (kv.1, cancelFuture kv.2)) }

/-- One response dispatch of `_run_stdout`: a message whose id matches a
pending entry pops that entry and resolves the future (unless it was
already cancelled, in which case the result is dropped). -/
def handleResponse (s : PumpState) (idm : Nat × String) : PumpState :=
  match alookup s.pending idm.1 with
  | some _ => { pending := aerase s.pending idm.1 }
  | none => s

/-- How the reader loop `_run_stdout` terminates: raising `EOFError` out of
a completed `close` (the path `_read_stdout` aims for on EOF), or breaking
silently after its `except (asyncio.CancelledError, ValueError)` handler
swallows a `CancelledError`. -/
inductive ReaderExit where
  | eofError
  | breakCancelled
  deriving DecidableEq, Repr

/-- The reader loop run to transport EOF: dispatch every received response;
then `_read_stdout` reads an empty header and calls `await self.close()`.
That call runs inside the reader task, which is a member of `self.tasks`
(`base_client.py:74`), so `close`'s `for task in self.tasks: task.cancel()`
cancels the reader itself and the subsequent
`await asyncio.gather(*self.tasks)` cannot complete normally: the gather
waits on the reader task, which is blocked on the gather, and the reader's
self-cancellation is delivered at that very await. `close` is therefore
abandoned before `self.stdin.close()`, before the pending-future
cancellation loop, and before `_read_stdout`'s `raise EOFError`; the
`CancelledError` propagates to `_run_stdout`, whose
`except (asyncio.CancelledError, ValueError): break` swallows it. The loop
exits with the pending table exactly as response dispatch left it and with
no `EOFError` surfaced. -/
def run_stdout_to_eof (msgs : List (Nat × String)) (s : PumpState) :
    PumpState × ReaderExit :=
  (msgs.foldl handleResponse s, ReaderExit.breakCancelled)

end Pump

/-! ### Concrete fixtures used to exercise the theorems on closed inputs -/

/-- A trivial text-edit applier (the claims do not constrain the text
transform). -/
def exApply : String → List DocumentContentChange → String := fun s _ => s

/-- A trivial filesystem. -/
def exDisk : String → String := fun _ => ""

/-- A sample diagnostic. -/
def exDiag : Diagnostic := { message := "sample" }

/-- A freshly opened file state. -/
def exFile : FileState := freshFileState "a.lean" ""

/-- An engine state tracking one freshly opened file. -/
def exMgr : ManagerState :=
  { max_opened_files := 2, opened_files := [("a.lean", exFile)] }

/-- The engine state reached by opening a file, editing it, receiving a
stale diagnostics push for the pre-edit version and then a fatal
file-progress notification. -/
def fatalAfterStaleDiags : ManagerState :=
  runOps exApply exDisk
    [Op.openF ["a.lean"] "never" false,
     Op.update "a.lean" [],
     Op.publish "a.lean" [exDiag] (some 0),
     Op.progress "a.lean" [{ kind := 2 }]]
    { max_opened_files := 2 }

/-- The engine state reached by opening a file and then having its
`waitForDiagnostics` future fail: `error` is stored, `complete` is set,
and the diagnostics list is still empty. -/
def errorAfterFailedWait : ManagerState :=
  runOps exApply exDisk
    [Op.openF ["a.lean"] "never" false,
     Op.waitFuture "a.lean" (some "boom")]
    { max_opened_files := 2 }

/-! ### Association-list lemmas -/

section AssocLemmas

variable {κ : Type} {α : Type} [DecidableEq κ]

@[simp]
theorem alookup_nil (k : κ) : alookup ([] : List (κ × α)) k = none := rfl

theorem alookup_cons (k1 : κ) (v1 : α) (rest : List (κ × α)) (k : κ) :
    alookup ((k1, v1) :: rest) k =
      if k1 = k then some v1 else alookup rest k := rfl

@[simp]
theorem alookup_aset (m : List (κ × α)) (k p : κ) (v : α) :
    alookup (aset m k v) p = if k = p then some v else alookup m p := by
  induction m with
  | nil => simp [aset, alookup_cons]
  | cons kv rest ih =>
    obtain ⟨k1, v1⟩ := kv
    by_cases h1 : k1 = k
    · subst h1
      simp only [aset, if_pos rfl]
      by_cases h2 : k1 = p <;> simp [h2, alookup_cons]
    · simp only [aset, if_neg h1, alookup_cons, ih]
      by_cases h2 : k1 = p
      · subst h2
        simp [Ne.symm h1]
      · simp [h2]

@[simp]
theorem alookup_aerase (m : List (κ × α)) (k p : κ) :
    alookup (aerase m k) p = if k = p then none else alookup m p := by
  induction m with
  | nil => simp [aerase]
  | cons kv rest ih =>
    obtain ⟨k1, v1⟩ := kv
    by_cases h1 : k1 = k
    · subst h1
      by_cases h2 : k1 = p
      · subst h2
        simpa [aerase, alookup_cons] using ih
      · simpa [aerase, alookup_cons, h2] using ih
    · by_cases h2 : k1 = p
      · subst h2
        simp [aerase, alookup_cons, h1, Ne.symm h1]
      · simpa [aerase, alookup_cons, h1, h2] using ih

@[simp]
theorem alookup_eraseAll (m : List (κ × α)) (ps : List κ) (p : κ) :
    alookup (eraseAll m ps) p = if p ∈ ps then none else alookup m p := by
  induction ps generalizing m with
  | nil => simp [eraseAll]
  | cons q rest ih =>
    simp only [eraseAll, ih, alookup_aerase]
    by_cases hq : q = p
    · subst hq
      simp
    · by_cases hp : p ∈ rest <;> simp [hp, hq, List.mem_cons, Ne.symm hq]

theorem keys_aset (m : List (κ × α)) (k : κ) (v : α) :
    keys (aset m k v) = if k ∈ keys m then keys m else keys m ++ [k] := by
  induction m with
  | nil => simp [aset, keys]
  | cons kv rest ih =>
    obtain ⟨k1, v1⟩ := kv
    by_cases h1 : k1 = k
    · subst h1
      simp [aset, keys]
    · simp only [aset, if_neg h1, keys, List.map_cons] at ih ⊢
      rw [ih]
      by_cases h2 : k ∈ List.map Prod.fst rest <;>
        simp [h2, List.mem_cons, Ne.symm h1]

theorem keys_aerase (m : List (κ × α)) (k : κ) :
    keys (aerase m k) = (keys m).filter (fun q => decide (q ≠ k)) := by
  induction m with
  | nil => rfl
  | cons kv rest ih =>
    obtain ⟨k1, v1⟩ := kv
    by_cases h1 : k1 = k
    · subst h1
      simpa [aerase, keys, List.filter] using ih
    · simpa [aerase, keys, List.filter, h1] using ih

theorem keys_eraseAll (m : List (κ × α)) (ps : List κ) :
    keys (eraseAll m ps) = (keys m).filter (fun q => decide (q ∉ ps)) := by
  induction ps generalizing m with
  | nil => simp [eraseAll]
  | cons q rest ih =>
    simp only [eraseAll, ih, keys_aerase, List.filter_filter]
    apply List.filter_congr
    intro x _
    by_cases hx : x ∈ rest <;> by_cases hq : x = q <;> simp [hx, hq]

theorem alookup_isSome_iff_mem_keys (m : List (κ × α)) (k : κ) :
    (alookup m k).isSome = true ↔ k ∈ keys m := by
  induction m with
  | nil => simp [keys]
  | cons kv rest ih =>
    obtain ⟨k1, v1⟩ := kv
    by_cases h1 : k1 = k
    · subst h1
      simp [alookup_cons, keys]
    · simp only [alookup_cons, if_neg h1, keys, List.map_cons, List.mem_cons] at ih ⊢
      rw [ih]
      simp [Ne.symm h1]

theorem alookup_eq_none_iff_not_mem_keys (m : List (κ × α)) (k : κ) :
    alookup m k = none ↔ k ∉ keys m := by
  rw [← alookup_isSome_iff_mem_keys]
  cases alookup m k <;> simp

theorem keys_nodup_aset (m : List (κ × α)) (k : κ) (v : α)
    (h : (keys m).Nodup) : (keys (aset m k v)).Nodup := by
  rw [keys_aset]
  by_cases hk : k ∈ keys m
  · simpa [hk]
  · simp only [hk, if_false]
    simpa [List.nodup_append, hk] using h

theorem keys_nodup_aerase (m : List (κ × α)) (k : κ)
    (h : (keys m).Nodup) : (keys (aerase m k)).Nodup := by
  rw [keys_aerase]
  exact h.filter _

theorem keys_nodup_eraseAll (m : List (κ × α)) (ps : List κ)
    (h : (keys m).Nodup) : (keys (eraseAll m ps)).Nodup := by
  rw [keys_eraseAll]
  exact h.filter _

end AssocLemmas

/-! ### Generic list lemmas for the eviction analysis -/

section EvictionLists

variable {β : Type} [DecidableEq β]

theorem length_filter_mem_add_not_mem (l : List β) (q : β → Bool) :
    (l.filter q).length + (l.filter (fun x => !q x)).length = l.length := by
  induction l with
  | nil => rfl
  | cons a rest ih =>
    by_cases h : q a = true <;> simp [List.filter, h] <;> omega

/-- A nodup list whose elements all lie in `l'` is no longer than
`l'.dedup`. -/
theorem nodup_length_le_of_subset {l l' : List β} (hn : l.Nodup)
    (hs : ∀ x ∈ l, x ∈ l') : l.length ≤ l'.length := by
  calc l.length = l.toFinset.card := (List.toFinset_card_of_nodup hn).symm
    _ ≤ l'.toFinset.card := by
        apply Finset.card_le_card
        intro x hx
        rw [List.mem_toFinset] at hx ⊢
        exact hs x hx
    _ ≤ l'.length := l'.toFinset_card_le

/-- Filtering a nodup list down to the members of one of its sublists
recovers exactly that sublist. -/
theorem filter_mem_of_sublist {t l : List β} (hs : t.Sublist l) (hn : l.Nodup) :
    l.filter (fun x => decide (x ∈ t)) = t := by
  induction hs with
  | slnil => rfl
  | cons a hs ih =>
    rename_i l1 l2
    have ha : a ∉ l1 := fun hmem => (List.nodup_cons.mp hn).1 (hs.subset hmem)
    simp only [List.filter_cons, decide_eq_true_eq]
    rw [if_neg (by simpa using ha)]
    exact ih (List.nodup_cons.mp hn).2
  | cons₂ a hs ih =>
    rename_i l1 l2
    have ha : a ∉ l2 := (List.nodup_cons.mp hn).1
    simp only [List.filter_cons, decide_eq_true_eq, List.mem_cons, true_or, if_pos]
    have heq : l2.filter (fun x => decide (x = a ∨ x ∈ l1)) =
        l2.filter (fun x => decide (x ∈ l1)) := by
      apply List.filter_congr
      intro x hx
      have hxa : x ≠ a := fun h => ha (h ▸ hx)
      simp [hxa]
    rw [heq, ih (List.nodup_cons.mp hn).2]

theorem filter_not_mem_append {t d : List β} (hd : List.Disjoint t d) :
    (t ++ d).filter (fun x => decide (x ∉ t)) = d := by
  rw [List.filter_append]
  have h1 : t.filter (fun x => decide (x ∉ t)) = [] := by
    rw [List.filter_eq_nil]
    intro a ha
    simp [ha]
  have h2 : d.filter (fun x => decide (x ∉ t)) = d := by
    rw [List.filter_eq_self]
    intro a ha
    simp only [decide_eq_true_eq]
    exact fun hmem => hd hmem ha
  rw [h1, h2, List.nil_append]

/-- Removing the members of an initial segment from a nodup list leaves
exactly the rest of the list. -/
theorem filter_not_mem_take {l : List β} (hn : l.Nodup) (k : Nat) :
    l.filter (fun x => decide (x ∉ l.take k)) = l.drop k := by
  have hd : List.Disjoint (l.take k) (l.drop k) := by
    have h := hn
    rw [← List.take_append_drop k l, List.nodup_append] at h
    exact h.2.2
  calc l.filter (fun x => decide (x ∉ l.take k))
      = (l.take k ++ l.drop k).filter (fun x => decide (x ∉ l.take k)) := by
        rw [List.take_append_drop]
    _ = l.drop k := filter_not_mem_append hd

end EvictionLists

/-! ### File-manager characterization lemmas -/

namespace FM

/-- How a tracked file's state may change across an engine step that keeps
it open without closing and reopening it: the version never decreases, and
if the diagnostics version was within the file version then it never
decreases and stays within the file version. -/
def Evolves (st st' : FileState) : Prop :=
  st.version ≤ st'.version ∧
  (st.diagnostics_version ≤ st.version →
    st.diagnostics_version ≤ st'.diagnostics_version ∧
    st'.diagnostics_version ≤ st'.version)

theorem evolves_refl (st : FileState) : Evolves st st :=
  ⟨le_refl _, fun h => ⟨le_refl _, h⟩⟩

theorem evolves_of_eq {st st' : FileState} (h : st' = st) : Evolves st st' := by
  rw [h]
  exact evolves_refl st

theorem evolves_trans {a b c : FileState} (h1 : Evolves a b) (h2 : Evolves b c) :
    Evolves a c := by
  obtain ⟨hv1, hd1⟩ := h1
  obtain ⟨hv2, hd2⟩ := h2
  refine ⟨le_trans hv1 hv2, fun h => ?_⟩
  obtain ⟨h1a, h1b⟩ := hd1 h
  obtain ⟨h2a, h2b⟩ := hd2 h1b
  exact ⟨le_trans h1a h2a, h2b⟩

/-- The version bump followed by `reset_after_change` (the transform of
`update_file` and of the stale-imports rebuild) evolves the state and
leaves `complete` false. -/
theorem evolves_reset_bump (st : FileState) (c : String) :
    Evolves st (FileState.reset_after_change { st with content := c, version := st.version + 1 }) := by
  refine ⟨?_, fun h => ⟨?_, ?_⟩⟩ <;>
    simp [FileState.reset_after_change] <;> omega

theorem update_file_ok {applyChanges : String → List DocumentContentChange → String}
    {s : ManagerState} {p : String} {cs : List DocumentContentChange}
    {s' : ManagerState} {msgs : List Msg}
    (h : update_file applyChanges s p cs = .ok (s', msgs)) :
    ∃ st, alookup s.opened_files p = some st ∧
      s'.opened_files = aset s.opened_files p
        (FileState.reset_after_change
          { st with content := applyChanges st.content cs, version := st.version + 1 }) ∧
      s'.max_opened_files = s.max_opened_files ∧
      s'.recently_closed = s.recently_closed ∧
      msgs = [Msg.didChange p (st.version + 1)] := by
  unfold update_file at h
  cases hl : alookup s.opened_files p with
  | none => rw [hl] at h; cases h
  | some st =>
    rw [hl] at h
    simp only [Except.ok.injEq, Prod.mk.injEq] at h
    obtain ⟨h1, h2⟩ := h
    subst h1
    subst h2
    exact ⟨st, rfl, rfl, rfl, rfl, by simp [FileState.reset_after_change]⟩

theorem update_file_error {applyChanges : String → List DocumentContentChange → String}
    {s : ManagerState} {p : String} {cs : List DocumentContentChange}
    (h : alookup s.opened_files p = none) :
    update_file applyChanges s p cs = .error "FileNotFoundError" := by
  unfold update_file
  rw [h]

/-- Facts about the tracked path's entry across `handle_publish_diagnostics`:
the version never decreases; any change to the entry implies the version
guard passed with no stored error; under the protocol assumption the
diagnostics version evolves; and `complete` is never newly set. -/
theorem publish_step_facts {s : ManagerState} {p : String}
    {d : List Diagnostic} {v : Option Int} {st st' : FileState}
    (hl : alookup s.opened_files p = some st)
    (hl2 : alookup (handle_publish_diagnostics s p d v).1.opened_files p = some st') :
    st.version ≤ st'.version ∧
    (st' ≠ st → st.diagnostics_version ≤ v.getD (-2) ∧ st.error = none) ∧
    (st.diagnostics_version ≤ st.version → v.getD (-2) ≤ st.version →
      st.diagnostics_version ≤ st'.diagnostics_version ∧
      st'.diagnostics_version ≤ st'.version) ∧
    (st'.complete = st.complete ∨ st'.complete = false) := by
  simp only [handle_publish_diagnostics, hl] at hl2
  by_cases hg : st.diagnostics_version ≤ v.getD (-2)
  · rw [if_pos hg] at hl2
    by_cases he : st.error = none
    · rw [if_pos he] at hl2
      by_cases hr : (!st.dependency_rebuild_attempted && d.any importsOutOfDate) = true
      · rw [if_pos hr] at hl2
        rw [alookup_aset, if_pos rfl, Option.some.injEq] at hl2
        refine ⟨?_, fun _ => ⟨hg, he⟩, fun h1 _ => ?_, Or.inr ?_⟩ <;>
          rw [← hl2] <;> simp [FileState.reset_after_change] <;> omega
      · rw [if_neg hr] at hl2
        rw [alookup_aset, if_pos rfl, Option.some.injEq] at hl2
        refine ⟨?_, fun _ => ⟨hg, he⟩, fun h1 h2 => ?_, Or.inl ?_⟩ <;>
          rw [← hl2] <;> simp [hg] <;> omega
    · rw [if_neg he, hl, Option.some.injEq] at hl2
      rw [← hl2]
      exact ⟨le_refl _, fun h => absurd rfl h, fun h _ => ⟨le_refl _, h⟩, Or.inl rfl⟩
  · rw [if_neg hg, hl, Option.some.injEq] at hl2
    rw [← hl2]
    exact ⟨le_refl _, fun h => absurd rfl h, fun h _ => ⟨le_refl _, h⟩, Or.inl rfl⟩

theorem publish_untracked {s : ManagerState} {p : String}
    {d : List Diagnostic} {v : Option Int}
    (hl : alookup s.opened_files p = none) :
    handle_publish_diagnostics s p d v = (s, []) := by
  unfold handle_publish_diagnostics
  rw [hl]

theorem publish_other {s : ManagerState} {p : String}
    {d : List Diagnostic} {v : Option Int} (q : String) (hq : p ≠ q) :
    alookup (handle_publish_diagnostics s p d v).1.opened_files q =
      alookup s.opened_files q := by
  unfold handle_publish_diagnostics
  cases hl : alookup s.opened_files p with
  | none => rfl
  | some st =>
    by_cases hg : st.diagnostics_version ≤ (v.getD (-2) : Int)
    · by_cases he : st.error = none
      · simp only [hg, if_pos, he, if_true]
        by_cases hr : (!st.dependency_rebuild_attempted && d.any importsOutOfDate) = true <;>
          simp [hr, hq]
      · simp [hg, he]
    · simp [hg]

/-- The entry transform of `handle_file_progress`. -/
theorem progress_self {s : ManagerState} {p : String} (pr : List ProgressInfo)
    {st : FileState} (hl : alookup s.opened_files p = some st) :
    ∃ st', alookup (handle_file_progress s p pr).opened_files p = some st' ∧
      st'.version = st.version ∧
      st'.diagnostics_version = st.diagnostics_version ∧
      st'.complete = (st.complete || fatalLast pr) := by
  unfold handle_file_progress
  rw [hl]
  by_cases hf : fatalLast pr = true <;> by_cases hz : pr.isEmpty <;>
    simp [hf, hz]

theorem progress_untracked {s : ManagerState} {p : String} {pr : List ProgressInfo}
    (hl : alookup s.opened_files p = none) :
    handle_file_progress s p pr = s := by
  unfold handle_file_progress
  rw [hl]

theorem progress_other {s : ManagerState} {p : String} {pr : List ProgressInfo}
    (q : String) (hq : p ≠ q) :
    alookup (handle_file_progress s p pr).opened_files q =
      alookup s.opened_files q := by
  unfold handle_file_progress
  cases hl : alookup s.opened_files p with
  | none => rfl
  | some st =>
    by_cases hf : fatalLast pr = true <;> by_cases hz : pr.isEmpty <;>
      simp [hf, hz, hq]

/-- Key-level facts about the shared eviction computation: on a nodup key
list, with the batch within the bound, the chosen `removable` prefix has
exactly `length - max` elements, removing it brings the map to the bound,
and the surviving not-in-batch keys are exactly the remaining (newer)
ones. -/
theorem evict_keys_facts (l paths : List String) (maxF : Nat)
    (hnd : l.Nodup) (hlen : paths.length ≤ maxF) :
    ((l.filter (fun p => decide (p ∉ paths))).take (l.length - maxF)).length
        = l.length - maxF ∧
      (l.filter (fun q =>
          decide (q ∉ (l.filter (fun p => decide (p ∉ paths))).take (l.length - maxF)))).length
        = l.length - (l.length - maxF) ∧
      (l.filter (fun q =>
            decide (q ∉ (l.filter (fun p => decide (p ∉ paths))).take (l.length - maxF)))).filter
          (fun q => decide (q ∉ paths))
        = (l.filter (fun p => decide (p ∉ paths))).drop (l.length - maxF) ∧
      l.filter (fun q =>
          decide (q ∈ (l.filter (fun p => decide (p ∉ paths))).take (l.length - maxF)))
        = (l.filter (fun p => decide (p ∉ paths))).take (l.length - maxF) := by
  set rc := l.length - maxF with hrc
  set L := l.filter (fun p => decide (p ∉ paths)) with hL
  set removable := L.take rc with hremovable
  have hLnodup : L.Nodup := hnd.filter _
  have hsubL : removable.Sublist L := List.take_sublist _ _
  have hsubl : removable.Sublist l := hsubL.trans (List.filter_sublist _)
  have hsplit : (l.filter (fun p => decide (p ∈ paths))).length + L.length = l.length := by
    have hcongr : l.filter (fun x => !decide (x ∈ paths)) = L := by
      rw [hL]
      apply List.filter_congr
      intro x _
      by_cases hx : x ∈ paths <;> simp [hx]
    rw [← hcongr]
    exact length_filter_mem_add_not_mem l _
  have hin : (l.filter (fun p => decide (p ∈ paths))).length ≤ maxF := by
    refine le_trans (nodup_length_le_of_subset (hnd.filter _) ?_) hlen
    intro x hx
    have := List.of_mem_filter hx
    simpa using this
  have hLlen : rc ≤ L.length := by omega
  have hrem_len : removable.length = rc := by
    rw [hremovable, List.length_take]
    omega
  have hmem_eq : l.filter (fun q => decide (q ∈ removable)) = removable :=
    filter_mem_of_sublist hsubl hnd
  have hsplit2 : (l.filter (fun q => decide (q ∈ removable))).length +
      (l.filter (fun q => decide (q ∉ removable))).length = l.length := by
    have hcongr : l.filter (fun x => !decide (x ∈ removable)) =
        l.filter (fun q => decide (q ∉ removable)) := by
      apply List.filter_congr
      intro x _
      by_cases hx : x ∈ removable <;> simp [hx]
    rw [← hcongr]
    exact length_filter_mem_add_not_mem l _
  refine ⟨hrem_len, ?_, ?_, hmem_eq⟩
  · rw [hmem_eq, hrem_len] at hsplit2
    omega
  · have hcomm : (l.filter (fun q => decide (q ∉ removable))).filter
        (fun q => decide (q ∉ paths)) = L.filter (fun q => decide (q ∉ removable)) := by
      rw [hL, List.filter_filter, List.filter_filter]
      apply List.filter_congr
      intro x _
      by_cases h1 : x ∈ removable <;> by_cases h2 : x ∈ paths <;> simp [h1, h2]
    rw [hcomm, hremovable]
    exact filter_not_mem_take hLnodup rc

theorem setClosePending_keys (ps : List String) :
    ∀ m : List (String × FileState), keys (setClosePending m ps) = keys m := by
  induction ps with
  | nil => intro m; rfl
  | cons p rest ih =>
    intro m
    unfold setClosePending
    cases hl : alookup m p with
    | none => exact ih m
    | some st =>
      rw [ih]
      rw [keys_aset]
      rw [if_pos ((alookup_isSome_iff_mem_keys m p).mp (by simp [hl]))]

theorem setClosePending_lookup_not_mem (ps : List String) :
    ∀ (m : List (String × FileState)) (q : String), q ∉ ps →
      alookup (setClosePending m ps) q = alookup m q := by
  induction ps with
  | nil => intro m q _; rfl
  | cons p rest ih =>
    intro m q hq
    have hqp : p ≠ q := fun h => hq (h ▸ List.mem_cons_self p rest)
    have hqrest : q ∉ rest := fun h => hq (List.mem_cons_of_mem p h)
    unfold setClosePending
    cases hl : alookup m p with
    | none => exact ih m q hqrest
    | some st =>
      rw [ih _ q hqrest, alookup_aset, if_neg hqp]

theorem close_files_ok {s : ManagerState} {ps : List String} {b : Bool}
    {s' : ManagerState} {msgs : List Msg}
    (h : close_files s ps b = .ok (s', msgs)) :
    s'.max_opened_files = s.max_opened_files ∧
    (∀ q, alookup s'.opened_files q =
      if q ∈ ps then none else alookup s.opened_files q) ∧
    keys s'.opened_files = (keys s.opened_files).filter (fun q => decide (q ∉ ps)) ∧
    msgs = ps.map Msg.didClose := by
  unfold close_files at h
  by_cases hc : (ps.any fun p => (alookup s.opened_files p).isNone) = true
  · rw [if_pos hc] at h; cases h
  · rw [if_neg hc] at h
    simp only [Except.ok.injEq, Prod.mk.injEq] at h
    obtain ⟨h1, h2⟩ := h
    subst h1
    refine ⟨rfl, fun q => ?_, ?_, h2.symm⟩
    · by_cases hb : b = true <;>
        by_cases hq : q ∈ ps <;>
        simp [hb, hq, alookup_eraseAll, setClosePending_lookup_not_mem ps _ q]
    · by_cases hb : b = true <;> simp [hb, keys_eraseAll, setClosePending_keys]

theorem close_files_error {s : ManagerState} {ps : List String} {b : Bool}
    (p : String) (hp : p ∈ ps) (h : alookup s.opened_files p = none) :
    close_files s ps b = .error "FileNotFoundError" := by
  unfold close_files
  rw [if_pos (List.any_eq_true.mpr ⟨p, hp, by simp [h]⟩)]

theorem close_files_ok_of_tracked {s : ManagerState} {ps : List String} (b : Bool)
    (h : ∀ p ∈ ps, (alookup s.opened_files p).isSome = true) :
    ∃ s' msgs, close_files s ps b = .ok (s', msgs) := by
  unfold close_files
  have hno : (ps.any fun p => (alookup s.opened_files p).isNone) ≠ true := by
    intro hcontra
    obtain ⟨p, hp, hnone⟩ := List.any_eq_true.mp hcontra
    have hsome := h p hp
    rw [Option.isNone_iff_eq_none.mp hnone] at hsome
    cases hsome
  rw [if_neg hno]
  exact ⟨_, _, rfl⟩

theorem open_new_files_max (disk : String → String) (mode : String)
    (ps : List String) : ∀ s : ManagerState,
    (open_new_files disk mode s ps).1.max_opened_files = s.max_opened_files := by
  induction ps with
  | nil => intro s; rfl
  | cons p rest ih => intro s; exact ih _

theorem open_new_files_lookup (disk : String → String) (mode : String)
    (ps : List String) : ∀ (s : ManagerState) (q : String),
    alookup (open_new_files disk mode s ps).1.opened_files q =
      if q ∈ ps then some (freshFileState q (disk q))
      else alookup s.opened_files q := by
  induction ps with
  | nil => intro s q; simp [open_new_files]
  | cons p rest ih =>
    intro s q
    unfold open_new_files
    rw [ih]
    by_cases hq1 : q ∈ rest
    · simp [hq1, List.mem_cons]
    · by_cases hq2 : q = p
      · subst hq2
        simp [hq1]
      · simp [hq1, hq2, Ne.symm hq2]

theorem open_new_files_mem_keys (disk : String → String) (mode : String)
    (ps : List String) (s : ManagerState) (q : String) :
    q ∈ keys (open_new_files disk mode s ps).1.opened_files ↔
      q ∈ ps ∨ q ∈ keys s.opened_files := by
  rw [← alookup_isSome_iff_mem_keys, open_new_files_lookup]
  by_cases hq : q ∈ ps <;> simp [hq, alookup_isSome_iff_mem_keys]

theorem open_new_files_keys_filter (disk : String → String) (mode : String)
    (ps paths : List String) (hps : ∀ p ∈ ps, p ∈ paths) :
    ∀ s : ManagerState,
    (keys (open_new_files disk mode s ps).1.opened_files).filter
        (fun q => decide (q ∉ paths)) =
      (keys s.opened_files).filter (fun q => decide (q ∉ paths)) := by
  induction ps with
  | nil => intro s; rfl
  | cons p rest ih =>
    intro s
    unfold open_new_files
    rw [ih (fun x hx => hps x (List.mem_cons_of_mem p hx))]
    rw [keys_aset]
    by_cases hm : p ∈ keys s.opened_files
    · rw [if_pos hm]
    · rw [if_neg hm, List.filter_append]
      have : [p].filter (fun q => decide (q ∉ paths)) = [] := by
        simp [hps p (List.mem_cons_self p rest)]
      rw [this, List.append_nil]

/-- The disk-sync pass over already-open files leaves the key structure
alone and each entry either untouched or bumped through the
`update_file` transform. -/
theorem sync_facts (applyChanges : String → List DocumentContentChange → String)
    (disk : String → String) (ps : List String) :
    ∀ {s s' : ManagerState} {msgs : List Msg},
    sync_already_open applyChanges disk s ps = .ok (s', msgs) →
    s'.max_opened_files = s.max_opened_files ∧
    keys s'.opened_files = keys s.opened_files ∧
    ∀ q, alookup s'.opened_files q = alookup s.opened_files q ∨
      ∃ st st', alookup s.opened_files q = some st ∧
        alookup s'.opened_files q = some st' ∧ Evolves st st' ∧
        st'.complete = false := by
  induction ps with
  | nil =>
    intro s s' msgs h
    simp only [sync_already_open, Except.ok.injEq, Prod.mk.injEq] at h
    rw [← h.1]
    exact ⟨rfl, rfl, fun q => Or.inl rfl⟩
  | cons p rest ih =>
    intro s s' msgs h
    unfold sync_already_open at h
    cases hl : alookup s.opened_files p with
    | none => rw [hl] at h; cases h
    | some st =>
      rw [hl] at h
      dsimp only at h
      by_cases hc : st.content = disk p
      · rw [if_pos hc] at h
        exact ih h
      · rw [if_neg hc] at h
        cases hu : update_file applyChanges s p
            [{ text := disk p, start := (0, 0),
               endPos := (splitlinesCount st.content, 0) }] with
        | error e => rw [hu] at h; cases h
        | ok pair =>
          obtain ⟨s1, msgs1⟩ := pair
          rw [hu] at h
          dsimp only at h
          cases hr : sync_already_open applyChanges disk s1 rest with
          | error e => rw [hr] at h; cases h
          | ok pair2 =>
            obtain ⟨s2, msgs2⟩ := pair2
            rw [hr] at h
            simp only [Except.ok.injEq, Prod.mk.injEq] at h
            obtain ⟨h1, _⟩ := h
            subst h1
            obtain ⟨st0, hst0, hof, hmax1, _, _⟩ := update_file_ok hu
            rw [hl] at hst0
            injection hst0 with hst0
            subst hst0
            obtain ⟨ihmax, ihkeys, ihentry⟩ := ih hr
            have hpmem : p ∈ keys s.opened_files :=
              (alookup_isSome_iff_mem_keys _ _).mp (by simp [hl])
            have hkeys1 : keys s1.opened_files = keys s.opened_files := by
              rw [hof, keys_aset, if_pos hpmem]
            have hlook1 : ∀ q, alookup s1.opened_files q =
                if p = q then
                  some (FileState.reset_after_change
                    { st with
                      content := applyChanges st.content
                        [{ text := disk p, start := (0, 0),
                           endPos := (splitlinesCount st.content, 0) }],
                      version := st.version + 1 })
                else alookup s.opened_files q := by
              intro q
              rw [hof, alookup_aset]
            refine ⟨ihmax.trans hmax1, ihkeys.trans hkeys1, fun q => ?_⟩
            have hcompl : (FileState.reset_after_change
                { st with
                  content := applyChanges st.content
                    [{ text := disk p, start := (0, 0),
                       endPos := (splitlinesCount st.content, 0) }],
                  version := st.version + 1 }).complete = false := rfl
            rcases ihentry q with hq | ⟨st1, st2, hq1, hq2, hev, hc2⟩
            · rw [hlook1 q] at hq
              by_cases hpq : p = q
              · subst hpq
                rw [if_pos rfl] at hq
                exact Or.inr ⟨st, _, hl, hq, evolves_reset_bump st _, hcompl⟩
              · rw [if_neg hpq] at hq
                exact Or.inl hq
            · rw [hlook1 q] at hq1
              by_cases hpq : p = q
              · subst hpq
                rw [if_pos rfl] at hq1
                injection hq1 with hq1
                refine Or.inr ⟨st, st2, hl, hq2, ?_, hc2⟩
                exact evolves_trans (evolves_reset_bump st _) (hq1 ▸ hev)
              · rw [if_neg hpq] at hq1
                exact Or.inr ⟨st1, st2, hq1, hq2, hev, hc2⟩

/-- Facts about `reconcile_tracked` needed by the entry and eviction
analyses. -/
theorem reconcile_facts {applyChanges : String → List DocumentContentChange → String}
    {disk : String → String} {s : ManagerState} {paths : List String}
    {fr : Bool} {s1 : ManagerState} {msgs : List Msg} {new2 : List String}
    (h : reconcile_tracked applyChanges disk s paths fr = .ok (s1, msgs, new2)) :
    s1.max_opened_files = s.max_opened_files ∧
    (∀ q ∈ new2, q ∈ paths) ∧
    (keys s1.opened_files).filter (fun q => decide (q ∉ paths)) =
      (keys s.opened_files).filter (fun q => decide (q ∉ paths)) ∧
    ((keys s.opened_files).Nodup → (keys s1.opened_files).Nodup) ∧
    (∀ q, q ∈ keys s.opened_files → q ∈ keys s1.opened_files ∨ q ∈ new2) ∧
    (∀ q ∈ new2, alookup s.opened_files q = none ∨ (fr = true ∧ q ∈ paths)) ∧
    (∀ q st st', alookup s.opened_files q = some st →
      alookup s1.opened_files q = some st' →
      st' = st ∨ (Evolves st st' ∧ st'.complete = false)) := by
  unfold reconcile_tracked at h
  set new_files := paths.filter (fun p => (alookup s.opened_files p).isNone) with hnf
  set already_open := paths.filter (fun p => (alookup s.opened_files p).isSome) with hao
  have hnew_paths : ∀ q ∈ new_files, q ∈ paths := fun q hq => (List.mem_filter.mp hq).1
  have hnew_none : ∀ q ∈ new_files, alookup s.opened_files q = none := by
    intro q hq
    have := (List.mem_filter.mp hq).2
    simpa [Option.isNone_iff_eq_none] using this
  have hao_paths : ∀ q ∈ already_open, q ∈ paths := fun q hq => (List.mem_filter.mp hq).1
  by_cases hempty : already_open.isEmpty = true
  · rw [if_pos hempty] at h
    simp only [Except.ok.injEq, Prod.mk.injEq] at h
    obtain ⟨h1, _, h3⟩ := h
    subst h1
    subst h3
    exact ⟨rfl, hnew_paths, rfl, fun hn => hn, fun q hq => Or.inl hq,
      fun q hq => Or.inl (hnew_none q hq), fun q st st' h1 h2 =>
        Or.inl (by rw [h1] at h2; injection h2 with h2; exact h2.symm)⟩
  · rw [if_neg hempty] at h
    by_cases hfr : fr = true
    · rw [if_pos (by rw [hfr])] at h
      cases hcl : close_files s already_open true with
      | error e => rw [hcl] at h; cases h
      | ok pair =>
        obtain ⟨sc, msgsc⟩ := pair
        rw [hcl] at h
        simp only [Except.ok.injEq, Prod.mk.injEq] at h
        obtain ⟨h1, _, h3⟩ := h
        subst h1
        subst h3
        obtain ⟨cmax, clook, ckeys, _⟩ := close_files_ok hcl
        refine ⟨cmax, ?_, ?_, ?_, ?_, ?_, ?_⟩
        · intro q hq
          rcases List.mem_append.mp hq with hq | hq
          · exact hnew_paths q hq
          · exact hao_paths q hq
        · rw [ckeys, List.filter_filter]
          apply List.filter_congr
          intro x _
          by_cases h1 : x ∈ paths
          · simp [h1]
          · have h2 : x ∉ already_open := fun hx => h1 (hao_paths x hx)
            simp [h1, h2]
        · intro hn
          rw [ckeys]
          exact hn.filter _
        · intro q hq
          by_cases hqa : q ∈ already_open
          · exact Or.inr (List.mem_append.mpr (Or.inr hqa))
          · refine Or.inl ?_
            rw [← alookup_isSome_iff_mem_keys, clook q, if_neg hqa,
              alookup_isSome_iff_mem_keys]
            exact hq
        · intro q hq
          rcases List.mem_append.mp hq with hq | hq
          · exact Or.inl (hnew_none q hq)
          · exact Or.inr ⟨hfr, hao_paths q hq⟩
        · intro q st st' h1 h2
          rw [clook q] at h2
          by_cases hqa : q ∈ already_open
          · rw [if_pos hqa] at h2; cases h2
          · rw [if_neg hqa, h1] at h2
            injection h2 with h2
            exact Or.inl h2.symm
    · rw [if_neg hfr] at h
      cases hsy : sync_already_open applyChanges disk s already_open with
      | error e => rw [hsy] at h; cases h
      | ok pair =>
        obtain ⟨ss, msgss⟩ := pair
        rw [hsy] at h
        simp only [Except.ok.injEq, Prod.mk.injEq] at h
        obtain ⟨h1, _, h3⟩ := h
        subst h1
        subst h3
        obtain ⟨smax, skeys, sentry⟩ := sync_facts applyChanges disk already_open hsy
        refine ⟨smax, hnew_paths, by rw [skeys], fun hn => skeys ▸ hn, ?_, ?_, ?_⟩
        · intro q hq
          rw [skeys]
          exact Or.inl hq
        · intro q hq
          exact Or.inl (hnew_none q hq)
        · intro q st st' h1 h2
          rcases sentry q with hq | ⟨sta, stb, hqa, hqb, hev, hcb⟩
          · rw [h1] at hq
            rw [hq] at h2
            injection h2 with h2
            exact Or.inl h2.symm
          · rw [h1] at hqa
            injection hqa with hqa
            rw [h2] at hqb
            injection hqb with hqb
            subst hqa
            subst hqb
            exact Or.inr ⟨hev, hcb⟩

theorem open_new_files_keys_nodup (disk : String → String) (mode : String)
    (ps : List String) : ∀ s : ManagerState,
    (keys s.opened_files).Nodup →
    (keys (open_new_files disk mode s ps).1.opened_files).Nodup := by
  induction ps with
  | nil => intro s h; exact h
  | cons p rest ih =>
    intro s h
    unfold open_new_files
    apply ih
    rw [keys_aset]
    by_cases hm : p ∈ keys s.opened_files
    · rwa [if_pos hm]
    · rw [if_neg hm]
      simp [List.nodup_append, h, hm]

theorem keys_length {α : Type} (m : List (String × α)) :
    (keys m).length = m.length := by
  simp [keys]

/-- The eviction pass always succeeds (the paths it closes are tracked) and
brings the map to the bound, deleting exactly the oldest not-in-batch
prefix. -/
theorem evict_overflow_facts {s2 : ManagerState} {paths : List String}
    (hnd : (keys s2.opened_files).Nodup)
    (hlen : paths.length ≤ s2.max_opened_files) :
    ∃ s3 msgs, evict_overflow s2 paths = .ok (s3, msgs) ∧
      s3.max_opened_files = s2.max_opened_files ∧
      s3.opened_files.length ≤ s2.max_opened_files ∧
      (s2.opened_files.length - s2.max_opened_files ≠ 0 →
        s3.opened_files.length = s2.max_opened_files) ∧
      (∀ q, alookup s3.opened_files q =
        if q ∈ ((keys s2.opened_files).filter (fun p => decide (p ∉ paths))).take
            (s2.opened_files.length - s2.max_opened_files)
        then none else alookup s2.opened_files q) ∧
      (keys s3.opened_files).filter (fun q => decide (q ∉ paths)) =
        ((keys s2.opened_files).filter (fun p => decide (p ∉ paths))).drop
          (s2.opened_files.length - s2.max_opened_files) := by
  have hkl : (keys s2.opened_files).length = s2.opened_files.length :=
    keys_length _
  obtain ⟨f1, f2, f3, f4⟩ :=
    evict_keys_facts (keys s2.opened_files) paths s2.max_opened_files hnd hlen
  rw [hkl] at f1 f2 f3 f4
  by_cases hrc : s2.opened_files.length - s2.max_opened_files = 0
  · refine ⟨s2, [], ?_, rfl, by omega, fun hca => absurd hrc hca, ?_, ?_⟩
    · unfold evict_overflow
      rw [if_pos hrc]
    · intro q
      rw [hrc]
      simp
    · rw [hrc, List.drop_zero]
  · have htracked : ∀ p ∈ ((keys s2.opened_files).filter
        (fun p => decide (p ∉ paths))).take
        (s2.opened_files.length - s2.max_opened_files),
        (alookup s2.opened_files p).isSome = true := by
      intro p hp
      rw [alookup_isSome_iff_mem_keys]
      exact (List.filter_sublist _).subset ((List.take_sublist _ _).subset hp)
    obtain ⟨s3, msgs, hcl⟩ := close_files_ok_of_tracked true htracked
    obtain ⟨cmax, clook, ckeys, _⟩ := close_files_ok hcl
    refine ⟨s3, msgs, ?_, cmax, ?_, fun _ => ?_, clook, ?_⟩
    · unfold evict_overflow
      rw [if_neg hrc]
      exact hcl
    · have : s3.opened_files.length =
          s2.opened_files.length - (s2.opened_files.length - s2.max_opened_files) := by
        rw [← keys_length s3.opened_files, ckeys, f2]
      omega
    · have : s3.opened_files.length =
          s2.opened_files.length - (s2.opened_files.length - s2.max_opened_files) := by
        rw [← keys_length s3.opened_files, ckeys, f2]
      omega
    · rw [ckeys]
      exact f3

/-- How the entry of a path that is tracked before and after an
`open_files` call can change: it is untouched, or reset by the disk sync,
or (only under `force_reopen` with the path in the batch) replaced by a
fresh state; in particular `complete` is never newly set, and without a
force-reopen of the path the state evolves. -/
theorem open_files_entry {applyChanges : String → List DocumentContentChange → String}
    {disk : String → String} {s : ManagerState} {paths : List String}
    {mode : String} {fr : Bool} {s' : ManagerState} {msgs : List Msg}
    {p : String} {st st' : FileState}
    (h : open_files applyChanges disk s paths mode fr = .ok (s', msgs))
    (hl : alookup s.opened_files p = some st)
    (hl2 : alookup s'.opened_files p = some st') :
    (st' = st ∨ st'.complete = false) ∧
    ((fr = true → p ∉ paths) → Evolves st st') := by
  unfold open_files at h
  by_cases hg : s.max_opened_files < paths.length
  · rw [if_pos hg] at h; cases h
  · rw [if_neg hg] at h
    cases hrec : reconcile_tracked applyChanges disk s paths fr with
    | error e => rw [hrec] at h; cases h
    | ok triple =>
      obtain ⟨s1, msgs1, new2⟩ := triple
      rw [hrec] at h
      dsimp only at h
      obtain ⟨_, hnew2, _, _, _, hnew2src, hentry⟩ := reconcile_facts hrec
      cases hev : evict_overflow (open_new_files disk mode s1 new2).1 paths with
      | error e => rw [hev] at h; cases h
      | ok pair =>
        obtain ⟨s3, msgs3⟩ := pair
        rw [hev] at h
        simp only [Except.ok.injEq, Prod.mk.injEq] at h
        obtain ⟨h1, _⟩ := h
        subst h1
        unfold evict_overflow at hev
        have hmid : ∀ q, alookup s3.opened_files q = none ∨
            alookup s3.opened_files q =
              alookup (open_new_files disk mode s1 new2).1.opened_files q := by
          by_cases hrc : (open_new_files disk mode s1 new2).1.opened_files.length -
              (open_new_files disk mode s1 new2).1.max_opened_files = 0
          · rw [if_pos hrc] at hev
            simp only [Except.ok.injEq, Prod.mk.injEq] at hev
            intro q
            rw [← hev.1]
            exact Or.inr rfl
          · rw [if_neg hrc] at hev
            obtain ⟨_, clook, _, _⟩ := close_files_ok hev
            intro q
            rw [clook q]
            by_cases hq : q ∈ (((keys (open_new_files disk mode s1 new2).1.opened_files).filter
                (fun p => decide (p ∉ paths))).take
                ((open_new_files disk mode s1 new2).1.opened_files.length -
                  (open_new_files disk mode s1 new2).1.max_opened_files))
            · rw [if_pos hq]; exact Or.inl rfl
            · rw [if_neg hq]; exact Or.inr rfl
        rcases hmid p with hnone | hsame
        · rw [hnone] at hl2; cases hl2
        · rw [hsame, open_new_files_lookup] at hl2
          by_cases hpnew : p ∈ new2
          · rw [if_pos hpnew] at hl2
            injection hl2 with hl2
            rcases hnew2src p hpnew with hcontra | ⟨hfr, hppaths⟩
            · rw [hcontra] at hl; cases hl
            · constructor
              · right
                rw [← hl2]
                rfl
              · intro hno
                exact absurd hppaths (hno hfr)
          · rw [if_neg hpnew] at hl2
            rcases hentry p st st' hl hl2 with heq | ⟨hevo, hcomp⟩
            · exact ⟨Or.inl heq, fun _ => evolves_of_eq heq⟩
            · exact ⟨Or.inr hcomp, fun _ => hevo⟩

end FM

namespace FM

/-- The cache-bound and eviction-policy facts about a completed
`open_files` call: the map ends within the bound; the evicted paths (those
tracked before but not after) are exactly an oldest-first prefix of the
tracked paths not in the current batch, the surviving not-in-batch paths
are exactly the rest, and eviction happens only down to the bound. -/
theorem open_files_c3_facts
    {applyChanges : String → List DocumentContentChange → String}
    {disk : String → String} {s : ManagerState} {paths : List String}
    {mode : String} {fr : Bool} {s' : ManagerState} {msgs : List Msg}
    (h : open_files applyChanges disk s paths mode fr = .ok (s', msgs))
    (hnd : (keys s.opened_files).Nodup) :
    s'.opened_files.length ≤ s.max_opened_files ∧
    (∃ k, (keys s.opened_files).filter (fun q => decide (q ∉ keys s'.opened_files)) =
        ((keys s.opened_files).filter (fun q => decide (q ∉ paths))).take k ∧
      (keys s'.opened_files).filter (fun q => decide (q ∉ paths)) =
        ((keys s.opened_files).filter (fun q => decide (q ∉ paths))).drop k) ∧
    ((keys s.opened_files).filter (fun q => decide (q ∉ keys s'.opened_files)) ≠ [] →
      s'.opened_files.length = s.max_opened_files) := by
  unfold open_files at h
  by_cases hg : s.max_opened_files < paths.length
  · rw [if_pos hg] at h; cases h
  · rw [if_neg hg] at h
    have hlen : paths.length ≤ s.max_opened_files := Nat.le_of_not_lt hg
    cases hrec : reconcile_tracked applyChanges disk s paths fr with
    | error e => rw [hrec] at h; cases h
    | ok triple =>
      obtain ⟨s1, msgs1, new2⟩ := triple
      rw [hrec] at h
      dsimp only at h
      obtain ⟨hmax1, hnew2, hfil1, hnd1, hmem1, hsrc1, _⟩ := reconcile_facts hrec
      set mid := (open_new_files disk mode s1 new2).1 with hmid
      have hmaxm : mid.max_opened_files = s.max_opened_files := by
        rw [hmid, open_new_files_max, hmax1]
      have hfilm : (keys mid.opened_files).filter (fun q => decide (q ∉ paths)) =
          (keys s.opened_files).filter (fun q => decide (q ∉ paths)) := by
        rw [hmid, open_new_files_keys_filter disk mode new2 paths hnew2, hfil1]
      have hndm : (keys mid.opened_files).Nodup := by
        rw [hmid]
        exact open_new_files_keys_nodup disk mode new2 s1 (hnd1 hnd)
      have hmemm : ∀ x, x ∈ keys s.opened_files → x ∈ keys mid.opened_files := by
        intro x hx
        rw [hmid, open_new_files_mem_keys]
        rcases hmem1 x hx with h1 | h1
        · exact Or.inr h1
        · exact Or.inl h1
      obtain ⟨s3, msgs3, hev, emax, elen, eexact, elook, efil⟩ :=
        evict_overflow_facts hndm (by rw [hmaxm]; exact hlen)
      rw [hev] at h
      dsimp only at h
      simp only [Except.ok.injEq, Prod.mk.injEq] at h
      obtain ⟨h1, _⟩ := h
      rw [h1] at elen eexact elook efil
      set rc := mid.opened_files.length - mid.max_opened_files with hrc
      set Lmid := (keys mid.opened_files).filter (fun p => decide (p ∉ paths)) with hLmid
      have hLpre : Lmid = (keys s.opened_files).filter (fun q => decide (q ∉ paths)) := hfilm
      have hmemchar : ∀ x, x ∈ keys s.opened_files →
          (x ∈ keys s'.opened_files ↔ x ∉ Lmid.take rc) := by
        intro x hx
        rw [← alookup_isSome_iff_mem_keys, elook x]
        by_cases hxr : x ∈ Lmid.take rc
        · rw [if_pos hxr]
          simp [hxr]
        · rw [if_neg hxr]
          rw [alookup_isSome_iff_mem_keys]
          simp only [hxr, not_false_iff, iff_true]
          exact hmemm x hx
      have hE : (keys s.opened_files).filter (fun q => decide (q ∉ keys s'.opened_files)) =
          (keys s.opened_files).filter (fun q => decide (q ∈ Lmid.take rc)) := by
        apply List.filter_congr
        intro x hx
        have hiff := hmemchar x hx
        by_cases hxr : x ∈ Lmid.take rc
        · have hnotmem : x ∉ keys s'.opened_files := fun hc => (hiff.mp hc) hxr
          simp [hnotmem, hxr]
        · have hmem : x ∈ keys s'.opened_files := hiff.mpr hxr
          simp [hmem, hxr]
      have hsubl : (Lmid.take rc).Sublist (keys s.opened_files) := by
        refine List.Sublist.trans (List.take_sublist _ _) ?_
        rw [hLpre]
        exact List.filter_sublist _
      have hEval : (keys s.opened_files).filter (fun q => decide (q ∈ Lmid.take rc)) =
          Lmid.take rc := filter_mem_of_sublist hsubl hnd
      refine ⟨by rw [← hmaxm]; exact elen, ⟨rc, ?_, ?_⟩, ?_⟩
      · rw [hE, hEval, hLpre]
      · rw [efil, hLpre]
      · intro hne
        rw [hE, hEval] at hne
        have hrcne : rc ≠ 0 := by
          intro hzero
          rw [hzero, List.take_zero] at hne
          exact hne rfl
        rw [← hmaxm]
        exact eexact hrcne

end FM

namespace BC

theorem registerNew_lookup (ps : List String) :
    ∀ (s : BaseState) (q : String),
    alookup (registerNew s ps).files_finished q =
      if q ∈ ps then some (-1) else alookup s.files_finished q := by
  induction ps with
  | nil => intro s q; simp [registerNew]
  | cons p rest ih =>
    intro s q
    unfold registerNew
    rw [ih]
    by_cases hq1 : q ∈ rest
    · simp [hq1, List.mem_cons]
    · by_cases hq2 : q = p
      · subst hq2
        simp [hq1]
      · simp [hq1, hq2, Ne.symm hq2]

theorem registerNew_max (ps : List String) :
    ∀ s : BaseState, (registerNew s ps).max_opened_files = s.max_opened_files := by
  induction ps with
  | nil => intro s; rfl
  | cons p rest ih => intro s; exact ih _

theorem registerNew_mem_keys (ps : List String) (s : BaseState) (q : String) :
    q ∈ keys (registerNew s ps).files_finished ↔
      q ∈ ps ∨ q ∈ keys s.files_finished := by
  rw [← alookup_isSome_iff_mem_keys, registerNew_lookup]
  by_cases hq : q ∈ ps <;> simp [hq, alookup_isSome_iff_mem_keys]

theorem registerNew_keys_filter (ps paths : List String)
    (hps : ∀ p ∈ ps, p ∈ paths) : ∀ s : BaseState,
    (keys (registerNew s ps).files_finished).filter (fun q => decide (q ∉ paths)) =
      (keys s.files_finished).filter (fun q => decide (q ∉ paths)) := by
  induction ps with
  | nil => intro s; rfl
  | cons p rest ih =>
    intro s
    unfold registerNew
    rw [ih (fun x hx => hps x (List.mem_cons_of_mem p hx))]
    rw [keys_aset]
    by_cases hm : p ∈ keys s.files_finished
    · rw [if_pos hm]
    · rw [if_neg hm, List.filter_append]
      have hsingle : [p].filter (fun q => decide (q ∉ paths)) = [] := by
        simp [hps p (List.mem_cons_self p rest)]
      rw [hsingle, List.append_nil]

theorem registerNew_keys_nodup (ps : List String) : ∀ s : BaseState,
    (keys s.files_finished).Nodup →
    (keys (registerNew s ps).files_finished).Nodup := by
  induction ps with
  | nil => intro s h; exact h
  | cons p rest ih =>
    intro s h
    unfold registerNew
    apply ih
    rw [keys_aset]
    by_cases hm : p ∈ keys s.files_finished
    · rwa [if_pos hm]
    · rw [if_neg hm]
      simp [List.nodup_append, h, hm]

theorem open_new_files_finished (disk : String → String) (ps : List String) :
    ∀ s : BaseState,
    (open_new_files disk s ps).1.files_finished = s.files_finished ∧
    (open_new_files disk s ps).1.max_opened_files = s.max_opened_files := by
  induction ps with
  | nil => intro s; exact ⟨rfl, rfl⟩
  | cons p rest ih => intro s; exact ih _

theorem close_files_tracked (s : BaseState) (ps : List String)
    (h : ∀ p ∈ ps, (alookup s.files_finished p).isSome = true) :
    (close_files s ps).1.files_finished = eraseAll s.files_finished ps ∧
    (close_files s ps).1.max_opened_files = s.max_opened_files := by
  unfold close_files
  have hfil : ps.filter (fun p => (alookup s.files_finished p).isSome) = ps :=
    List.filter_eq_self.mpr h
  rw [hfil]
  exact ⟨rfl, rfl⟩

/-- The cache-bound and eviction-policy facts about a completed async
`BaseLeanLSPClient.open_files` call, mirroring the file-manager version. -/
theorem open_files_bc_c3_facts {disk : String → String} {s : BaseState}
    {paths : List String} {s' : BaseState} {msgs : List Msg}
    (h : open_files disk s paths = .ok (s', msgs))
    (hnd : (keys s.files_finished).Nodup) :
    s'.files_finished.length ≤ s.max_opened_files ∧
    (∃ k, (keys s.files_finished).filter (fun q => decide (q ∉ keys s'.files_finished)) =
        ((keys s.files_finished).filter (fun q => decide (q ∉ paths))).take k ∧
      (keys s'.files_finished).filter (fun q => decide (q ∉ paths)) =
        ((keys s.files_finished).filter (fun q => decide (q ∉ paths))).drop k) ∧
    ((keys s.files_finished).filter (fun q => decide (q ∉ keys s'.files_finished)) ≠ [] →
      s'.files_finished.length = s.max_opened_files) := by
  unfold open_files at h
  by_cases hg : s.max_opened_files < paths.length
  · rw [if_pos hg] at h; cases h
  · rw [if_neg hg] at h
    have hlen : paths.length ≤ s.max_opened_files := Nat.le_of_not_lt hg
    dsimp only at h
    set new_files := paths.filter (fun p => (alookup s.files_finished p).isNone) with hnf
    have hnew_paths : ∀ q ∈ new_files, q ∈ paths := fun q hq => (List.mem_filter.mp hq).1
    set s1 := registerNew s new_files with hs1
    set mid := (open_new_files disk s1 new_files).1 with hmid2
    obtain ⟨hmidfin, hmidmax⟩ := open_new_files_finished disk new_files s1
    have hmaxm : mid.max_opened_files = s.max_opened_files := by
      rw [← hmid2] at hmidmax
      rw [hmidmax, hs1, registerNew_max]
    have hfinm : mid.files_finished = s1.files_finished := by
      rw [← hmid2] at hmidfin
      exact hmidfin
    have hfilm : (keys mid.files_finished).filter (fun q => decide (q ∉ paths)) =
        (keys s.files_finished).filter (fun q => decide (q ∉ paths)) := by
      rw [hfinm, hs1]
      exact registerNew_keys_filter new_files paths hnew_paths s
    have hndm : (keys mid.files_finished).Nodup := by
      rw [hfinm, hs1]
      exact registerNew_keys_nodup new_files s hnd
    have hmemm : ∀ x, x ∈ keys s.files_finished → x ∈ keys mid.files_finished := by
      intro x hx
      rw [hfinm, hs1, registerNew_mem_keys]
      exact Or.inr hx
    have hkl : (keys mid.files_finished).length = mid.files_finished.length :=
      FM.keys_length _
    obtain ⟨f1, f2, f3, f4⟩ :=
      FM.evict_keys_facts (keys mid.files_finished) paths s.max_opened_files hndm hlen
    rw [hkl] at f1 f2 f3 f4
    set rc := mid.files_finished.length - s.max_opened_files with hrc
    set Lmid := (keys mid.files_finished).filter (fun p => decide (p ∉ paths)) with hLmid
    set removable := Lmid.take rc with hremovable
    have hrcdef : mid.files_finished.length - mid.max_opened_files = rc := by
      rw [hmaxm]
    by_cases hrc0 : rc = 0
    · rw [hrcdef, hrc0] at h
      rw [if_pos rfl] at h
      simp only [Except.ok.injEq, Prod.mk.injEq] at h
      obtain ⟨h1, _⟩ := h
      subst h1
      have hEnil : (keys s.files_finished).filter
          (fun q => decide (q ∉ keys mid.files_finished)) = [] := by
        rw [List.filter_eq_nil]
        intro x hx
        simp only [decide_eq_true_eq, not_not]
        exact hmemm x hx
      refine ⟨?_, ⟨0, ?_, ?_⟩, ?_⟩
      · omega
      · rw [hEnil, List.take_zero]
      · rw [List.drop_zero]
        exact hfilm
      · intro hne
        exact absurd hEnil hne
    · rw [hrcdef] at h
      rw [if_neg hrc0] at h
      have htracked : ∀ p ∈ removable, (alookup mid.files_finished p).isSome = true := by
        intro p hp
        rw [alookup_isSome_iff_mem_keys]
        exact (List.filter_sublist _).subset ((List.take_sublist _ _).subset hp)
      obtain ⟨hclfin, hclmax⟩ := close_files_tracked mid removable htracked
      simp only [Except.ok.injEq, Prod.mk.injEq] at h
      obtain ⟨h1, _⟩ := h
      have hfin' : s'.files_finished = eraseAll mid.files_finished removable := by
        rw [← h1]
        exact hclfin
      have hkeys' : keys s'.files_finished =
          (keys mid.files_finished).filter (fun q => decide (q ∉ removable)) := by
        rw [hfin', keys_eraseAll]
      have hlen' : s'.files_finished.length = mid.files_finished.length - rc := by
        rw [← FM.keys_length s'.files_finished, hkeys', f2]
      have hmemchar : ∀ x, x ∈ keys s.files_finished →
          (x ∈ keys s'.files_finished ↔ x ∉ removable) := by
        intro x hx
        rw [hkeys', List.mem_filter]
        by_cases hxr : x ∈ removable
        · simp [hxr]
        · simp [hxr, hmemm x hx]
      have hE : (keys s.files_finished).filter
            (fun q => decide (q ∉ keys s'.files_finished)) =
          (keys s.files_finished).filter (fun q => decide (q ∈ removable)) := by
        apply List.filter_congr
        intro x hx
        have hiff := hmemchar x hx
        by_cases hxr : x ∈ removable
        · have hnotmem : x ∉ keys s'.files_finished := fun hc => (hiff.mp hc) hxr
          simp [hnotmem, hxr]
        · have hmem : x ∈ keys s'.files_finished := hiff.mpr hxr
          simp [hmem, hxr]
      have hsubl : removable.Sublist (keys s.files_finished) := by
        refine List.Sublist.trans (List.take_sublist _ _) ?_
        rw [hfilm]
        exact List.filter_sublist _
      have hEval : (keys s.files_finished).filter (fun q => decide (q ∈ removable)) =
          removable := filter_mem_of_sublist hsubl hnd
      refine ⟨by omega, ⟨rc, ?_, ?_⟩, fun _ => by omega⟩
      · rw [hE, hEval, hremovable, hfilm]
      · have hsurv : (keys s'.files_finished).filter (fun q => decide (q ∉ paths)) =
            Lmid.drop rc := by
          rw [hkeys']
          exact f3
        rw [hsurv, hfilm]

end BC

/-! ### Per-step lemmas over the engine operation semantics -/

/-- Across any single engine step that keeps the path tracked, respects the
diagnostics-version protocol bound, and does not force-reopen the path, the
path's state evolves (version monotone, diagnostics version monotone within
the version). -/
theorem step_entry_evolves
    {applyChanges : String → List DocumentContentChange → String}
    {disk : String → String} {op : Op} {s : ManagerState} {p : String}
    {st st' : FileState}
    (hl : alookup s.opened_files p = some st)
    (hl2 : alookup (stepOp applyChanges disk op s).opened_files p = some st')
    (hresp : opRespectsVersions s op = true)
    (hfr : opForceReopens p op = false) :
    FM.Evolves st st' := by
  cases op with
  | publish q d v =>
    by_cases hq : q = p
    · subst hq
      obtain ⟨f1, _, f3, _⟩ := FM.publish_step_facts hl hl2
      simp only [opRespectsVersions, hl] at hresp
      exact ⟨f1, fun hinv => f3 hinv (of_decide_eq_true hresp)⟩
    · rw [stepOp, FM.publish_other p hq, hl] at hl2
      injection hl2 with hl2
      exact FM.evolves_of_eq hl2.symm
  | progress q e =>
    by_cases hq : q = p
    · subst hq
      obtain ⟨st2, heq, hv, hd, _⟩ := FM.progress_self e hl
      rw [stepOp, heq] at hl2
      injection hl2 with hl2
      subst hl2
      exact ⟨le_of_eq hv.symm, fun h => ⟨le_of_eq hd.symm, by rw [hd, hv]; exact h⟩⟩
    · rw [stepOp, FM.progress_other p hq, hl] at hl2
      injection hl2 with hl2
      exact FM.evolves_of_eq hl2.symm
  | update q cs =>
    rw [stepOp] at hl2
    cases hu : FM.update_file applyChanges s q cs with
    | error e =>
      rw [hu] at hl2
      dsimp only at hl2
      rw [hl] at hl2
      injection hl2 with hl2
      exact FM.evolves_of_eq hl2.symm
    | ok pair =>
      obtain ⟨s1, msgs1⟩ := pair
      rw [hu] at hl2
      dsimp only at hl2
      obtain ⟨stx, hstx, hof, _, _, _⟩ := FM.update_file_ok hu
      rw [hof, alookup_aset] at hl2
      by_cases hq : q = p
      · subst hq
        rw [if_pos rfl] at hl2
        rw [hl] at hstx
        injection hstx with hstx
        subst hstx
        injection hl2 with hl2
        rw [← hl2]
        exact FM.evolves_reset_bump st _
      · rw [if_neg hq, hl] at hl2
        injection hl2 with hl2
        exact FM.evolves_of_eq hl2.symm
  | openF ps m fr =>
    rw [stepOp] at hl2
    cases ho : FM.open_files applyChanges disk s ps m fr with
    | error e =>
      rw [ho] at hl2
      dsimp only at hl2
      rw [hl] at hl2
      injection hl2 with hl2
      exact FM.evolves_of_eq hl2.symm
    | ok pair =>
      obtain ⟨s1, msgs1⟩ := pair
      rw [ho] at hl2
      dsimp only at hl2
      refine (FM.open_files_entry ho hl hl2).2 ?_
      intro hfr'
      subst hfr'
      simp only [opForceReopens, Bool.true_and] at hfr
      simp only [List.contains, List.elem_eq_mem, decide_eq_false_iff_not] at hfr
      exact hfr
  | closeF ps b =>
    rw [stepOp] at hl2
    cases hc : FM.close_files s ps b with
    | error e =>
      rw [hc] at hl2
      dsimp only at hl2
      rw [hl] at hl2
      injection hl2 with hl2
      exact FM.evolves_of_eq hl2.symm
    | ok pair =>
      obtain ⟨s1, msgs1⟩ := pair
      rw [hc] at hl2
      dsimp only at hl2
      obtain ⟨_, clook, _, _⟩ := FM.close_files_ok hc
      rw [clook p] at hl2
      by_cases hp : p ∈ ps
      · rw [if_pos hp] at hl2; cases hl2
      · rw [if_neg hp, hl] at hl2
        injection hl2 with hl2
        exact FM.evolves_of_eq hl2.symm
  | waitCheck q tv =>
    rw [stepOp] at hl2
    by_cases hq : q = p
    · subst hq
      rw [hl] at hl2
      dsimp only at hl2
      by_cases hcond : (!st.complete && !st.processing &&
          decide (tv ≤ st.diagnostics_version)) = true
      · rw [if_pos hcond] at hl2
        simp only [alookup_aset, if_pos rfl] at hl2
        injection hl2 with hl2
        rw [← hl2]
        exact ⟨le_refl _, fun h => ⟨le_refl _, h⟩⟩
      · rw [if_neg hcond, hl] at hl2
        injection hl2 with hl2
        exact FM.evolves_of_eq hl2.symm
    · cases hlq : alookup s.opened_files q with
      | none =>
        rw [hlq] at hl2
        dsimp only at hl2
        rw [hl] at hl2
        injection hl2 with hl2
        exact FM.evolves_of_eq hl2.symm
      | some stq =>
        rw [hlq] at hl2
        dsimp only at hl2
        by_cases hcond : (!stq.complete && !stq.processing &&
            decide (tv ≤ stq.diagnostics_version)) = true
        · rw [if_pos hcond] at hl2
          simp only [alookup_aset, if_neg hq, hl] at hl2
          injection hl2 with hl2
          exact FM.evolves_of_eq hl2.symm
        · rw [if_neg hcond, hl] at hl2
          injection hl2 with hl2
          exact FM.evolves_of_eq hl2.symm
  | waitFuture q out =>
    rw [stepOp] at hl2
    by_cases hq : q = p
    · subst hq
      rw [hl] at hl2
      dsimp only at hl2
      simp only [alookup_aset, if_pos rfl] at hl2
      injection hl2 with hl2
      cases out with
      | none =>
        rw [← hl2]
        exact ⟨le_refl _, fun h => ⟨le_refl _, h⟩⟩
      | some e =>
        rw [← hl2]
        exact ⟨le_refl _, fun h => ⟨le_refl _, h⟩⟩
    · cases hlq : alookup s.opened_files q with
      | none =>
        rw [hlq] at hl2
        dsimp only at hl2
        rw [hl] at hl2
        injection hl2 with hl2
        exact FM.evolves_of_eq hl2.symm
      | some stq =>
        rw [hlq] at hl2
        dsimp only at hl2
        simp only [alookup_aset, if_neg hq, hl] at hl2
        injection hl2 with hl2
        exact FM.evolves_of_eq hl2.symm

/-- Across any single engine step that keeps the path tracked, a `complete`
flag that was false afterwards equals exactly the trigger condition
`completeTrigger`: it is newly set only by a fatal fileProgress, a
`waitForDiagnostics` future resolution, or the wait loop's completeness
check, and always by those. -/
theorem step_complete_char
    {applyChanges : String → List DocumentContentChange → String}
    {disk : String → String} {op : Op} {s : ManagerState} {p : String}
    {st st' : FileState}
    (hl : alookup s.opened_files p = some st)
    (hl2 : alookup (stepOp applyChanges disk op s).opened_files p = some st')
    (hcomp : st.complete = false) :
    st'.complete = completeTrigger p st op := by
  cases op with
  | publish q d v =>
    by_cases hq : q = p
    · subst hq
      obtain ⟨_, _, _, f4⟩ := FM.publish_step_facts hl hl2
      rcases f4 with f4 | f4 <;> simp only [completeTrigger] <;> rw [f4]
      exact hcomp
    · rw [stepOp, FM.publish_other p hq, hl] at hl2
      injection hl2 with hl2
      simp only [completeTrigger]; rw [← hl2, hcomp]
  | progress q e =>
    by_cases hq : q = p
    · subst hq
      obtain ⟨st2, heq, _, _, hc⟩ := FM.progress_self e hl
      rw [stepOp, heq] at hl2
      injection hl2 with hl2
      subst hl2
      simp only [completeTrigger]; rw [hc, hcomp, Bool.false_or, beq_self_eq_true, Bool.true_and]
    · rw [stepOp, FM.progress_other p hq, hl] at hl2
      injection hl2 with hl2
      simp only [completeTrigger]; rw [← hl2, hcomp]
      simp [hq]
  | update q cs =>
    rw [stepOp] at hl2
    cases hu : FM.update_file applyChanges s q cs with
    | error e =>
      rw [hu] at hl2
      dsimp only at hl2
      rw [hl] at hl2
      injection hl2 with hl2
      simp only [completeTrigger]; rw [← hl2, hcomp]
    | ok pair =>
      obtain ⟨s1, msgs1⟩ := pair
      rw [hu] at hl2
      dsimp only at hl2
      obtain ⟨stx, _, hof, _, _, _⟩ := FM.update_file_ok hu
      rw [hof, alookup_aset] at hl2
      simp only [completeTrigger]
      by_cases hq : q = p
      · rw [if_pos hq] at hl2
        injection hl2 with hl2
        rw [← hl2]
        rfl
      · rw [if_neg hq, hl] at hl2
        injection hl2 with hl2
        rw [← hl2, hcomp]
  | openF ps m fr =>
    rw [stepOp] at hl2
    cases ho : FM.open_files applyChanges disk s ps m fr with
    | error e =>
      rw [ho] at hl2
      dsimp only at hl2
      rw [hl] at hl2
      injection hl2 with hl2
      simp only [completeTrigger]; rw [← hl2, hcomp]
    | ok pair =>
      obtain ⟨s1, msgs1⟩ := pair
      rw [ho] at hl2
      dsimp only at hl2
      simp only [completeTrigger]
      rcases (FM.open_files_entry ho hl hl2).1 with heq | hfalse
      · rw [heq, hcomp]
      · rw [hfalse]
  | closeF ps b =>
    rw [stepOp] at hl2
    cases hc : FM.close_files s ps b with
    | error e =>
      rw [hc] at hl2
      dsimp only at hl2
      rw [hl] at hl2
      injection hl2 with hl2
      simp only [completeTrigger]; rw [← hl2, hcomp]
    | ok pair =>
      obtain ⟨s1, msgs1⟩ := pair
      rw [hc] at hl2
      dsimp only at hl2
      obtain ⟨_, clook, _, _⟩ := FM.close_files_ok hc
      rw [clook p] at hl2
      by_cases hp : p ∈ ps
      · rw [if_pos hp] at hl2; cases hl2
      · rw [if_neg hp, hl] at hl2
        injection hl2 with hl2
        simp only [completeTrigger]; rw [← hl2, hcomp]
  | waitCheck q tv =>
    rw [stepOp] at hl2
    by_cases hq : q = p
    · subst hq
      rw [hl] at hl2
      dsimp only at hl2
      simp only [completeTrigger]; rw [beq_self_eq_true, Bool.true_and]
      by_cases hcond : (!st.complete && !st.processing &&
          decide (tv ≤ st.diagnostics_version)) = true
      · rw [if_pos hcond] at hl2
        simp only [alookup_aset, if_pos rfl] at hl2
        injection hl2 with hl2
        rw [← hl2]
        rw [hcomp] at hcond
        simp only [Bool.not_false, Bool.true_and] at hcond
        rw [hcond]
      · rw [if_neg hcond, hl] at hl2
        injection hl2 with hl2
        rw [← hl2, hcomp]
        rw [hcomp] at hcond
        simp only [Bool.not_false, Bool.true_and] at hcond
        exact (Bool.eq_false_iff.mpr hcond).symm
    · simp only [completeTrigger]
      have hbeq : (q == p) = false := by
        simp [hq]
      rw [hbeq, Bool.false_and]
      cases hlq : alookup s.opened_files q with
      | none =>
        rw [hlq] at hl2
        dsimp only at hl2
        rw [hl] at hl2
        injection hl2 with hl2
        rw [← hl2, hcomp]
      | some stq =>
        rw [hlq] at hl2
        dsimp only at hl2
        by_cases hcond : (!stq.complete && !stq.processing &&
            decide (tv ≤ stq.diagnostics_version)) = true
        · rw [if_pos hcond] at hl2
          simp only [alookup_aset, if_neg hq, hl] at hl2
          injection hl2 with hl2
          rw [← hl2, hcomp]
        · rw [if_neg hcond, hl] at hl2
          injection hl2 with hl2
          rw [← hl2, hcomp]
  | waitFuture q out =>
    rw [stepOp] at hl2
    by_cases hq : q = p
    · subst hq
      rw [hl] at hl2
      dsimp only at hl2
      simp only [alookup_aset, if_pos rfl] at hl2
      injection hl2 with hl2
      simp only [completeTrigger]; rw [beq_self_eq_true]
      cases out <;> rw [← hl2]
    · simp only [completeTrigger]
      have hbeq : (q == p) = false := by
        simp [hq]
      rw [hbeq]
      cases hlq : alookup s.opened_files q with
      | none =>
        rw [hlq] at hl2
        dsimp only at hl2
        rw [hl] at hl2
        injection hl2 with hl2
        rw [← hl2, hcomp]
      | some stq =>
        rw [hlq] at hl2
        dsimp only at hl2
        simp only [alookup_aset, if_neg hq, hl] at hl2
        injection hl2 with hl2
        rw [← hl2, hcomp]

/-- Along a trace that respects the protocol bound, never force-reopens the
path and keeps it tracked, both the version and the diagnostics version of
the path are monotone (given the internal invariant at the start). -/
theorem trace_monotone
    {applyChanges : String → List DocumentContentChange → String}
    {disk : String → String} (ops : List Op) :
    ∀ {s : ManagerState} {p : String} {st st' : FileState},
    alookup s.opened_files p = some st →
    diagVersionLE s p = true →
    traceOK applyChanges disk p s ops = true →
    alookup (runOps applyChanges disk ops s).opened_files p = some st' →
    st.version ≤ st'.version ∧
    st.diagnostics_version ≤ st'.diagnostics_version := by
  induction ops with
  | nil =>
    intro s p st st' hl _ _ hl2
    rw [runOps, hl] at hl2
    injection hl2 with hl2
    rw [hl2]
    exact ⟨le_refl _, le_refl _⟩
  | cons op rest ih =>
    intro s p st st' hl hinv htr hl2
    rw [traceOK, Bool.and_eq_true, Bool.and_eq_true, Bool.and_eq_true] at htr
    obtain ⟨⟨⟨hresp, hfr⟩, hsome⟩, htr⟩ := htr
    rw [runOps] at hl2
    obtain ⟨stm, hlm⟩ := Option.isSome_iff_exists.mp hsome
    have hfr' : opForceReopens p op = false := by
      cases hx : opForceReopens p op
      · rfl
      · rw [hx] at hfr; cases hfr
    have hev := step_entry_evolves hl hlm hresp hfr'
    have hinv0 : st.diagnostics_version ≤ st.version := by
      rw [diagVersionLE, hl] at hinv
      exact of_decide_eq_true hinv
    obtain ⟨hv, hd⟩ := hev
    obtain ⟨hd1, hd2⟩ := hd hinv0
    have hinv1 : diagVersionLE (stepOp applyChanges disk op s) p = true := by
      rw [diagVersionLE, hlm]
      exact decide_eq_true hd2
    obtain ⟨ihv, ihd⟩ := ih hlm hinv1 htr hl2
    exact ⟨le_trans hv ihv, le_trans hd1 ihd⟩

/-- N successive `update_file` steps on an open path raise its version by
exactly N. -/
theorem updates_version_count
    {applyChanges : String → List DocumentContentChange → String}
    {disk : String → String} (css : List (List DocumentContentChange)) :
    ∀ {s : ManagerState} {p : String} {st : FileState},
    alookup s.opened_files p = some st →
    ∃ st', alookup (runOps applyChanges disk (css.map (Op.update p)) s).opened_files p
        = some st' ∧
      st'.version = st.version + css.length := by
  induction css with
  | nil =>
    intro s p st hl
    exact ⟨st, by rw [List.map_nil, runOps, hl], by simp⟩
  | cons cs rest ih =>
    intro s p st hl
    have hu : FM.update_file applyChanges s p cs =
        .ok ({ s with opened_files := aset s.opened_files p (FileState.reset_after_change { st with content := applyChanges st.content cs, version := st.version + 1 }) }, [Msg.didChange p (FileState.reset_after_change { st with content := applyChanges st.content cs, version := st.version + 1 }).version]) := by
      unfold FM.update_file
      rw [hl]
    have hstep : stepOp applyChanges disk (Op.update p cs) s =
        { s with opened_files := aset s.opened_files p (FileState.reset_after_change { st with content := applyChanges st.content cs, version := st.version + 1 }) } := by
      rw [stepOp, hu]
    have hl1 : alookup (stepOp applyChanges disk (Op.update p cs) s).opened_files p =
        some (FileState.reset_after_change { st with content := applyChanges st.content cs, version := st.version + 1 }) := by
      rw [hstep]
      rw [alookup_aset, if_pos rfl]
    obtain ⟨st', hst', hver⟩ := ih hl1
    refine ⟨st', ?_, ?_⟩
    · rw [List.map_cons, runOps]
      exact hst'
    · rw [hver]
      simp [FileState.reset_after_change]
      omega

end leanclient

namespace leanclient

/-! ### Claim theorems -/

/-- C10: a `publishDiagnostics` or `fileProgress` notification for a path
that is not currently tracked leaves the engine state completely unchanged:
no `FileState` is created or resurrected, no message is sent, and every
other file's state is untouched. -/
theorem C10_untracked_notifications_noop
    (s : ManagerState) (p : String) (d : List Diagnostic) (v : Option Int)
    (e : List ProgressInfo) (h : alookup s.opened_files p = none) :
    FM.handle_publish_diagnostics s p d v = (s, []) ∧
    FM.handle_file_progress s p e = s :=
  ⟨FM.publish_untracked h, FM.progress_untracked h⟩

theorem C10_witness :
    alookup exMgr.opened_files "b.lean" = none ∧
    (FM.handle_publish_diagnostics exMgr "b.lean" [exDiag] (some 0) = (exMgr, []) ∧
      FM.handle_file_progress exMgr "b.lean" [] = exMgr) :=
  ⟨by decide,
    C10_untracked_notifications_noop exMgr "b.lean" [exDiag] (some 0) [] (by decide)⟩

/-- C9 counterexample: a request left pending when the transport reaches
EOF stays unresolved. With one pending future and no further responses, the
reader's EOF termination leaves the future in state `pending` — neither
cancelled nor rejected — and never surfaces an `EOFError`: the claim that
the EOF path resolves every pending future fails, and a caller awaiting
that future hangs forever. -/
theorem C9_counterexample :
    (Pump.run_stdout_to_eof [] { pending := [(1, Pump.FutureState.pending)] }).1.pending
      = [(1, Pump.FutureState.pending)] ∧
    (Pump.run_stdout_to_eof [] { pending := [(1, Pump.FutureState.pending)] }).2
      ≠ Pump.ReaderExit.eofError :=
  ⟨rfl, by decide⟩

/-- C9 (amended): a `close()` call that runs to completion — one made from
outside the gathered reader/stderr tasks — cancels every future in the
pending table, so after it no pending-table future is unresolved. But when
the reader loop terminates on transport EOF, the `close()` invoked by
`_read_stdout` runs inside the reader task itself: its gather over the task
set containing that task never completes, so `close` is abandoned before
its cancellation loop, no `EOFError` is raised, and the pending table is
left exactly as response dispatch left it — any still-pending future stays
pending. -/
theorem C9_external_close_cancels_eof_path_leaves_pending :
    (∀ (s : Pump.PumpState) (id : Nat) (fs : Pump.FutureState),
      (id, fs) ∈ (Pump.closeClient s).pending → fs ≠ Pump.FutureState.pending) ∧
    (∀ (msgs : List (Nat × String)) (s : Pump.PumpState),
      (Pump.run_stdout_to_eof msgs s).2 ≠ Pump.ReaderExit.eofError ∧
      (Pump.run_stdout_to_eof msgs s).1 = msgs.foldl Pump.handleResponse s) := by
  refine ⟨?_, fun msgs s => ⟨by simp [Pump.run_stdout_to_eof], rfl⟩⟩
  intro s id fs hmem
  simp only [Pump.closeClient, List.mem_map] at hmem
  obtain ⟨⟨id0, fs0⟩, _, heq⟩ := hmem
  have hfs : fs = Pump.cancelFuture fs0 := by
    have := congrArg Prod.snd heq
    simpa using this.symm
  rw [hfs]
  cases fs0 <;> simp [Pump.cancelFuture]

theorem C9_witness :
    (1, Pump.FutureState.cancelled) ∈
      (Pump.closeClient { pending := [(1, Pump.FutureState.pending)] }).pending ∧
    Pump.FutureState.cancelled ≠ Pump.FutureState.pending :=
  ⟨by decide,
    C9_external_close_cancels_eof_path_leaves_pending.1
      { pending := [(1, Pump.FutureState.pending)] } 1
      Pump.FutureState.cancelled (by decide)⟩

/-- C6 counterexample: against a method whose result changes once and then
stabilizes, with `maxRetries = 3`, the synchronous driver makes 6 underlying
requests and the asynchronous driver makes 5 — neither makes exactly
`maxRetries + 1 = 4`, so the claimed request count is wrong as stated. -/
theorem C6_counterexample :
    send_request_retry_sync (fun n => if n = 0 then 0 else 1) 3 20 = some (1, 6) ∧
    send_request_retry_async (fun n => if n = 0 then 0 else 1) 3 20 = some (1, 5) ∧
    (6 : Nat) ≠ 3 + 1 ∧ (5 : Nat) ≠ 3 + 1 := by
  refine ⟨?_, ?_, by decide, by decide⟩ <;> decide

/-- C6 (amended): both drivers reset the counter on a changed result and
increment it on an identical one, but the async `send_request_retry`
returns once `retries` consecutive identical results were seen
(`retries + 1` requests when the first result is already the stable one,
`retries + 2` when it changes once), while the sync `_send_request_retry`
compares strictly and needs `max_retries + 1` consecutive identical results
(`max_retries + 2` and `max_retries + 3` requests respectively). -/
theorem C6_retry_driver_counts {R : Type} [DecidableEq R] (a b : R) (hab : a ≠ b) :
    send_request_retry_sync (fun _ => b) 3 20 = some (b, 5) ∧
    send_request_retry_async (fun _ => b) 3 20 = some (b, 4) ∧
    send_request_retry_sync (fun n => if n = 0 then a else b) 3 20 = some (b, 6) ∧
    send_request_retry_async (fun n => if n = 0 then a else b) 3 20 = some (b, 5) := by
  have hba : b ≠ a := Ne.symm hab
  refine ⟨?_, ?_, ?_, ?_⟩ <;>
    simp [send_request_retry_sync, send_request_retry_async,
      syncRetryLoop, asyncRetryLoop, hab, hba]

theorem C6_witness :
    (0 : Nat) ≠ 1 ∧
    send_request_retry_async (fun _ => (1 : Nat)) 3 20 = some (1, 4) :=
  ⟨by decide, (C6_retry_driver_counts 0 1 (by decide)).2.1⟩

/-- C4 counterexample: the thin synchronous client's `open_files`
(`client.py`) does not reject an over-limit batch — with
`max_opened_files = 1` and two paths it returns normally, sends `didOpen`
for both files, and even leaves two files tracked. -/
theorem C4_counterexample :
    (SC.open_files exDisk (fun _ => [])
        { max_opened_files := 1 } ["a.lean", "b.lean"]).1.opened_files.length = 2 ∧
    Msg.didOpen "a.lean" "" 1 none ∈
      (SC.open_files exDisk (fun _ => [])
        { max_opened_files := 1 } ["a.lean", "b.lean"]).2.1 ∧
    Msg.didOpen "b.lean" "" 1 none ∈
      (SC.open_files exDisk (fun _ => [])
        { max_opened_files := 1 } ["a.lean", "b.lean"]).2.1 := by
  refine ⟨?_, ?_, ?_⟩ <;> decide

/-- C4 (amended): the `LSPFileManager` and async `BaseLeanLSPClient`
implementations of `open_files` reject a batch larger than
`max_opened_files` with a runtime error raised before anything is sent or
recorded (the error return carries no state change and no messages); the
thin synchronous client only prints a warning and proceeds. -/
theorem C4_too_many_open_files_rejected
    (applyChanges : String → List DocumentContentChange → String)
    (disk : String → String) (s : ManagerState) (paths : List String)
    (mode : String) (fr : Bool) (sb : BC.BaseState) (pathsb : List String)
    (h1 : s.max_opened_files < paths.length)
    (h2 : sb.max_opened_files < pathsb.length) :
    FM.open_files applyChanges disk s paths mode fr =
      .error "RuntimeError: too many open files" ∧
    BC.open_files disk sb pathsb = .error "RuntimeError: too many open files" := by
  constructor
  · unfold FM.open_files
    rw [if_pos h1]
  · unfold BC.open_files
    rw [if_pos h2]

theorem C4_witness :
    (exMgr.max_opened_files < (["a.lean", "b.lean", "c.lean"] : List String).length ∧
      (0 : Nat) < (["a.lean"] : List String).length) ∧
    (FM.open_files exApply exDisk exMgr ["a.lean", "b.lean", "c.lean"] "never" false =
        .error "RuntimeError: too many open files" ∧
      BC.open_files exDisk { max_opened_files := 0 } ["a.lean"] =
        .error "RuntimeError: too many open files") :=
  ⟨⟨by decide, by decide⟩,
    C4_too_many_open_files_rejected exApply exDisk exMgr
      ["a.lean", "b.lean", "c.lean"] "never" false
      { max_opened_files := 0 } ["a.lean"] (by decide) (by decide)⟩

/-- C8 counterexample: the async `BaseLeanLSPClient.close_files` and the
thin synchronous `LeanLSPClient.close_files` do not fail on an untracked
path — they silently filter it out, returning with no error, no `didClose`
sent, and no state change. -/
theorem C8_counterexample :
    BC.close_files { max_opened_files := 2 } ["a.lean"] =
      ({ max_opened_files := 2 }, []) ∧
    SC.close_files { max_opened_files := 2 } ["a.lean"] =
      ({ max_opened_files := 2 }, []) := by
  constructor <;> rfl

/-- C8 (amended): `LSPFileManager.close_files` fails with a not-open error
when any requested path is untracked, raising before any `didClose` is
sent and before any tracked file is removed (the error return carries no
messages and no state change); the base-client and thin-client
implementations instead silently skip untracked paths. -/
theorem C8_close_untracked_rejected (s : ManagerState) (paths : List String)
    (b : Bool) (p : String) (hp : p ∈ paths)
    (h : alookup s.opened_files p = none) :
    FM.close_files s paths b = .error "FileNotFoundError" :=
  FM.close_files_error p hp h

theorem C8_witness :
    ("b.lean" ∈ (["b.lean"] : List String) ∧
      alookup exMgr.opened_files "b.lean" = none) ∧
    FM.close_files exMgr ["b.lean"] true = .error "FileNotFoundError" :=
  ⟨⟨by decide, by decide⟩,
    C8_close_untracked_rejected exMgr ["b.lean"] true "b.lean"
      (by decide) (by decide)⟩

end leanclient

namespace leanclient

theorem step_version_mono
    {applyChanges : String → List DocumentContentChange → String}
    {disk : String → String} {op : Op} {s : ManagerState} {p : String}
    {st st' : FileState}
    (hl : alookup s.opened_files p = some st)
    (hl2 : alookup (stepOp applyChanges disk op s).opened_files p = some st')
    (hfr : opForceReopens p op = false) :
    st.version ≤ st'.version := by
  cases op with
  | publish q d v =>
    by_cases hq : q = p
    · subst hq
      exact (FM.publish_step_facts hl hl2).1
    · rw [stepOp, FM.publish_other p hq, hl] at hl2
      injection hl2 with hl2
      rw [hl2]
  | progress q e => exact (step_entry_evolves hl hl2 rfl hfr).1
  | update q cs => exact (step_entry_evolves hl hl2 rfl hfr).1
  | openF ps m fr => exact (step_entry_evolves hl hl2 rfl hfr).1
  | closeF ps b => exact (step_entry_evolves hl hl2 rfl hfr).1
  | waitCheck q tv => exact (step_entry_evolves hl hl2 rfl hfr).1
  | waitFuture q out => exact (step_entry_evolves hl hl2 rfl hfr).1

/-- C7: (i) N successful `update_file` calls on an open path raise its
version by exactly N over the version at the start (in particular, by N
over the version 0 set at open); (ii) no single engine operation — handler,
update, open, close or wait step — ever decreases an open file's version,
as long as the operation is not a `force_reopen` of that very path (which
the source implements as a close followed by a fresh open). -/
theorem C7_update_version_arithmetic_and_monotone :
    (∀ (applyChanges : String → List DocumentContentChange → String)
      (disk : String → String) (css : List (List DocumentContentChange))
      (s : ManagerState) (p : String) (st : FileState),
      alookup s.opened_files p = some st →
      ∃ st', alookup (runOps applyChanges disk (css.map (Op.update p)) s).opened_files p
          = some st' ∧
        st'.version = st.version + css.length) ∧
    (∀ (applyChanges : String → List DocumentContentChange → String)
      (disk : String → String) (op : Op) (s : ManagerState) (p : String)
      (st st' : FileState),
      alookup s.opened_files p = some st →
      alookup (stepOp applyChanges disk op s).opened_files p = some st' →
      opForceReopens p op = false →
      st.version ≤ st'.version) :=
  ⟨fun _ _ css _ _ _ hl => updates_version_count css hl,
    fun _ _ _ _ _ _ _ hl hl2 hfr => step_version_mono hl hl2 hfr⟩

theorem C7_witness :
    alookup exMgr.opened_files "a.lean" = some exFile ∧
    (∃ st', alookup (runOps exApply exDisk
        (([[], []] : List (List DocumentContentChange)).map (Op.update "a.lean"))
        exMgr).opened_files "a.lean" = some st' ∧
      st'.version = exFile.version + ([[], []] : List (List DocumentContentChange)).length) :=
  ⟨by decide,
    C7_update_version_arithmetic_and_monotone.1 exApply exDisk [[], []] exMgr
      "a.lean" exFile (by decide)⟩

/-- C1: (i) `handle_publish_diagnostics` replaces the stored diagnostics
list or diagnostics version of a tracked path only when the incoming
version is at or beyond the stored `diagnostics_version` and no `error` is
set; (ii) consequently, along any trace of engine steps in which incoming
diagnostics versions never exceed the file's current version (the LSP
protocol guarantee), the file is never force-reopened and stays tracked,
its observed `diagnostics_version` never decreases. -/
theorem C1_publish_guard_and_diag_version_monotone :
    (∀ (s : ManagerState) (p : String) (d : List Diagnostic) (v : Option Int)
      (st st' : FileState),
      alookup s.opened_files p = some st →
      alookup (FM.handle_publish_diagnostics s p d v).1.opened_files p = some st' →
      st'.diagnostics ≠ st.diagnostics ∨
        st'.diagnostics_version ≠ st.diagnostics_version →
      st.diagnostics_version ≤ v.getD (-2) ∧ st.error = none) ∧
    (∀ (applyChanges : String → List DocumentContentChange → String)
      (disk : String → String) (ops : List Op) (s : ManagerState) (p : String)
      (st st' : FileState),
      alookup s.opened_files p = some st →
      diagVersionLE s p = true →
      traceOK applyChanges disk p s ops = true →
      alookup (runOps applyChanges disk ops s).opened_files p = some st' →
      st.diagnostics_version ≤ st'.diagnostics_version) := by
  constructor
  · intro s p d v st st' hl hl2 hdiff
    obtain ⟨_, f2, _, _⟩ := FM.publish_step_facts hl hl2
    apply f2
    intro heq
    rcases hdiff with hdiff | hdiff <;> rw [heq] at hdiff <;> exact hdiff rfl
  · intro applyChanges disk ops s p st st' hl hinv htr hl2
    exact (trace_monotone ops hl hinv htr hl2).2

theorem C1_witness :
    (alookup exMgr.opened_files "a.lean" = some exFile ∧
      (∃ st', alookup (FM.handle_publish_diagnostics exMgr "a.lean" [exDiag]
          (some 0)).1.opened_files "a.lean" = some st' ∧
        st'.diagnostics = [exDiag]) ∧
      diagVersionLE exMgr "a.lean" = true ∧
      traceOK exApply exDisk "a.lean" exMgr
        [Op.publish "a.lean" [exDiag] (some 0)] = true) ∧
    (exFile.diagnostics_version ≤ (some (0 : Int)).getD (-2) ∧
      exFile.error = none) ∧
    exFile.diagnostics_version ≤
      ({ exFile with diagnostics := [exDiag], diagnostics_version := 0, close_ready := false } : FileState).diagnostics_version := by
  refine ⟨⟨by decide, ⟨?_, ?_, ?_⟩, by decide, by decide⟩, ?_, ?_⟩
  · exact { exFile with diagnostics := [exDiag], diagnostics_version := 0 }
  · decide
  · decide
  · exact C1_publish_guard_and_diag_version_monotone.1 exMgr "a.lean" [exDiag]
      (some 0) exFile { exFile with diagnostics := [exDiag], diagnostics_version := 0 }
      (by decide) (by decide) (by decide)
  · exact C1_publish_guard_and_diag_version_monotone.2 exApply exDisk
      [Op.publish "a.lean" [exDiag] (some 0)] exMgr "a.lean" exFile
      { exFile with diagnostics := [exDiag], diagnostics_version := 0, close_ready := false }
      (by decide) (by decide) (by decide) (by decide)

end leanclient

namespace leanclient

/-- C2 counterexample: a reachable engine state (open, edit, stale
diagnostics push for the pre-edit version, then a fatal file-progress
notification) in which `complete` is true although `processing` is false
with `diagnostics_version < version`, no `error` is set, and `fatal_error`
fired with a non-empty diagnostics list — so "complete exactly when
(processing false ∧ diagnostics_version ≥ version) ∨ error ∨ (fatal_error ∧
no diagnostics)" is false on the code. -/
theorem C2_counterexample :
    ∃ st : FileState, alookup fatalAfterStaleDiags.opened_files "a.lean" = some st ∧
      st.complete = true ∧
      ¬((st.processing = false ∧ st.version ≤ st.diagnostics_version) ∨
        st.error ≠ none ∨ (st.fatal_error = true ∧ st.diagnostics = [])) := by
  refine ⟨{ uri := "a.lean", content := "", version := 1, diagnostics := [exDiag], diagnostics_version := 0, processing := false, error := none, fatal_error := true, complete := true, close_pending := false, close_ready := false, dependency_rebuild_attempted := false }, ?_, ?_, ?_⟩
  · decide
  · decide
  · decide

/-- C2 (amended): across any single engine step that keeps a path tracked,
a `complete` flag that was false becomes true exactly when the step is a
fatal fileProgress notification for the path (regardless of whether
diagnostics already arrived), the resolution of the path's
`waitForDiagnostics` future (success marks complete, failure additionally
stores the `error`), or the wait loop's completeness check with
`processing` false and `diagnostics_version` at or beyond the wait's
target version; `publishDiagnostics` alone never sets `complete`, and
edits, opens and closes never set it. -/
theorem C2_complete_trigger_char
    (applyChanges : String → List DocumentContentChange → String)
    (disk : String → String) (op : Op) (s : ManagerState) (p : String)
    (st st' : FileState)
    (hl : alookup s.opened_files p = some st)
    (hl2 : alookup (stepOp applyChanges disk op s).opened_files p = some st')
    (hcomp : st.complete = false) :
    st'.complete = completeTrigger p st op :=
  step_complete_char hl hl2 hcomp

theorem C2_witness :
    (alookup exMgr.opened_files "a.lean" = some exFile ∧
      alookup (stepOp exApply exDisk (Op.waitFuture "a.lean" none)
        exMgr).opened_files "a.lean" = some { exFile with complete := true } ∧
      exFile.complete = false) ∧
    ({ exFile with complete := true } : FileState).complete =
      completeTrigger "a.lean" exFile (Op.waitFuture "a.lean" none) :=
  ⟨⟨by decide, by decide, by decide⟩,
    C2_complete_trigger_char exApply exDisk (Op.waitFuture "a.lean" none) exMgr
      "a.lean" exFile { exFile with complete := true }
      (by decide) (by decide) (by decide)⟩

/-- C3: for both the `LSPFileManager` and the async `BaseLeanLSPClient`
implementations, every `open_files` call that returns normally leaves at
most `max_opened_files` files tracked; the files evicted by the call (those
tracked before but not after) are exactly an insertion-oldest prefix of the
tracked files not in the current `paths` argument, the surviving
not-in-batch files are exactly the remaining (newer) ones, and files are
evicted only down to the bound (if anything was evicted, exactly
`max_opened_files` files remain). -/
theorem C3_open_files_bound_and_eviction :
    (∀ (applyChanges : String → List DocumentContentChange → String)
      (disk : String → String) (s : ManagerState) (paths : List String)
      (mode : String) (fr : Bool) (s' : ManagerState) (msgs : List Msg),
      FM.open_files applyChanges disk s paths mode fr = .ok (s', msgs) →
      (keys s.opened_files).Nodup →
      s'.opened_files.length ≤ s.max_opened_files ∧
      (∃ k, (keys s.opened_files).filter (fun q => decide (q ∉ keys s'.opened_files)) =
          ((keys s.opened_files).filter (fun q => decide (q ∉ paths))).take k ∧
        (keys s'.opened_files).filter (fun q => decide (q ∉ paths)) =
          ((keys s.opened_files).filter (fun q => decide (q ∉ paths))).drop k) ∧
      ((keys s.opened_files).filter (fun q => decide (q ∉ keys s'.opened_files)) ≠ [] →
        s'.opened_files.length = s.max_opened_files)) ∧
    (∀ (disk : String → String) (s : BC.BaseState) (paths : List String)
      (s' : BC.BaseState) (msgs : List Msg),
      BC.open_files disk s paths = .ok (s', msgs) →
      (keys s.files_finished).Nodup →
      s'.files_finished.length ≤ s.max_opened_files ∧
      (∃ k, (keys s.files_finished).filter (fun q => decide (q ∉ keys s'.files_finished)) =
          ((keys s.files_finished).filter (fun q => decide (q ∉ paths))).take k ∧
        (keys s'.files_finished).filter (fun q => decide (q ∉ paths)) =
          ((keys s.files_finished).filter (fun q => decide (q ∉ paths))).drop k) ∧
      ((keys s.files_finished).filter (fun q => decide (q ∉ keys s'.files_finished)) ≠ [] →
        s'.files_finished.length = s.max_opened_files)) :=
  ⟨fun _ _ _ _ _ _ _ _ h hnd => FM.open_files_c3_facts h hnd,
    fun _ _ _ _ _ h hnd => BC.open_files_bc_c3_facts h hnd⟩

theorem C3_witness :
    (FM.open_files exApply exDisk
        { max_opened_files := 1, opened_files := [("a.lean", exFile)] }
        ["b.lean"] "never" false =
      .ok ({ max_opened_files := 1, opened_files := [("b.lean", freshFileState "b.lean" "")], recently_closed := ["a.lean"] },
        [Msg.didOpen "b.lean" "" 0 (some "never"), Msg.didClose "a.lean"]) ∧
      (keys (({ max_opened_files := 1, opened_files := [("a.lean", exFile)] } : ManagerState)).opened_files).Nodup) ∧
    (({ max_opened_files := 1, opened_files := [("b.lean", freshFileState "b.lean" "")], recently_closed := ["a.lean"] } : ManagerState).opened_files.length ≤ 1 ∧
      (∃ k, (keys (({ max_opened_files := 1, opened_files := [("a.lean", exFile)] } : ManagerState)).opened_files).filter
          (fun q => decide (q ∉ keys (({ max_opened_files := 1, opened_files := [("b.lean", freshFileState "b.lean" "")], recently_closed := ["a.lean"] } : ManagerState)).opened_files)) =
          ((keys (({ max_opened_files := 1, opened_files := [("a.lean", exFile)] } : ManagerState)).opened_files).filter
            (fun q => decide (q ∉ (["b.lean"] : List String)))).take k ∧
        (keys (({ max_opened_files := 1, opened_files := [("b.lean", freshFileState "b.lean" "")], recently_closed := ["a.lean"] } : ManagerState)).opened_files).filter
            (fun q => decide (q ∉ (["b.lean"] : List String))) =
          ((keys (({ max_opened_files := 1, opened_files := [("a.lean", exFile)] } : ManagerState)).opened_files).filter
            (fun q => decide (q ∉ (["b.lean"] : List String)))).drop k) ∧
      ((keys (({ max_opened_files := 1, opened_files := [("a.lean", exFile)] } : ManagerState)).opened_files).filter
          (fun q => decide (q ∉ keys (({ max_opened_files := 1, opened_files := [("b.lean", freshFileState "b.lean" "")], recently_closed := ["a.lean"] } : ManagerState)).opened_files)) ≠ [] →
        ({ max_opened_files := 1, opened_files := [("b.lean", freshFileState "b.lean" "")], recently_closed := ["a.lean"] } : ManagerState).opened_files.length = 1)) :=
  ⟨⟨by rfl, by decide⟩,
    C3_open_files_bound_and_eviction.1 exApply exDisk
      { max_opened_files := 1, opened_files := [("a.lean", exFile)] }
      ["b.lean"] "never" false
      { max_opened_files := 1, opened_files := [("b.lean", freshFileState "b.lean" "")], recently_closed := ["a.lean"] }
      [Msg.didOpen "b.lean" "" 0 (some "never"), Msg.didClose "a.lean"]
      (by rfl) (by decide)⟩

end leanclient

namespace leanclient

namespace FM

/-- Behaviour of the diagnostics wait on a single tracked incomplete path:
it succeeds, the path stays tracked, and either the entry check already
completed the file (`processing` cleared with the diagnostics version
caught up) or a `waitForDiagnostics` request was sent for it. -/
theorem wait_single_facts (outcome : String → WaitOutcome) {s : ManagerState}
    {p : String} {st : FileState}
    (hl : alookup s.opened_files p = some st) (hc : st.complete = false) :
    ∃ s2 msgs st2, wait_for_diagnostics outcome s [p] = .ok (s2, msgs) ∧
      alookup s2.opened_files p = some st2 ∧
      ((st.processing = false ∧ st.version ≤ st.diagnostics_version) ∨
        msgs = [Msg.waitForDiagnostics p st.version]) := by
  have hany : (([p] : List String).any
      (fun q => (alookup s.opened_files q).isNone)) = false := by
    simp [hl]
  by_cases hcond : (!st.complete && !st.processing &&
      decide (st.version ≤ st.diagnostics_version)) = true
  · have hm1 : waitPrecheck s.opened_files [p] =
        aset s.opened_files p { st with complete := true } := by
      unfold waitPrecheck
      rw [hl]
      dsimp only
      rw [if_pos hcond]
      rfl
    refine ⟨{ s with opened_files := aset s.opened_files p { st with complete := true } }, [], { st with complete := true }, ?_, ?_, Or.inl ?_⟩
    · unfold wait_for_diagnostics
      rw [hany]
      dsimp only
      rw [hm1]
      simp [applyWaitOutcome, alookup_aset]
    · rw [alookup_aset, if_pos rfl]
    · rw [hc] at hcond
      simp only [Bool.not_false, Bool.true_and, Bool.and_eq_true,
        Bool.not_eq_true', decide_eq_true_eq] at hcond
      exact hcond
  · have hm1 : waitPrecheck s.opened_files [p] = s.opened_files := by
      unfold waitPrecheck
      rw [hl]
      dsimp only
      rw [if_neg hcond]
      rfl
    have happ : ∃ st2, alookup (applyWaitOutcome outcome s.opened_files [p]) p =
        some st2 := by
      cases ho : outcome p with
      | futureOk =>
        exact ⟨{ st with complete := true },
          by simp [applyWaitOutcome, hl, ho, alookup_aset]⟩
      | futureErr e =>
        exact ⟨{ st with error := some e, processing := false, complete := true },
          by simp [applyWaitOutcome, hl, ho, alookup_aset]⟩
      | timeout =>
        exact ⟨st, by simp [applyWaitOutcome, hl, ho]⟩
    obtain ⟨st2, hst2⟩ := happ
    refine ⟨{ s with opened_files := applyWaitOutcome outcome s.opened_files [p] }, [Msg.waitForDiagnostics p st.version], st2, ?_, hst2, Or.inr rfl⟩
    unfold wait_for_diagnostics
    rw [hany]
    dsimp only
    rw [hm1]
    simp [hl, hc]

/-- Opening a single untracked path always succeeds (within the bound),
creates its fresh state, and sends the `didOpen`. -/
theorem open_files_untracked_single
    (applyChanges : String → List DocumentContentChange → String)
    (disk : String → String) (mode : String) (fr : Bool)
    {s : ManagerState} {p : String}
    (hl : alookup s.opened_files p = none) (hmax : 1 ≤ s.max_opened_files) :
    ∃ s' msgs, open_files applyChanges disk s [p] mode fr = .ok (s', msgs) ∧
      alookup s'.opened_files p = some (freshFileState p (disk p)) ∧
      Msg.didOpen p (disk p) 0 (some mode) ∈ msgs := by
  have hrec : reconcile_tracked applyChanges disk s [p] fr = .ok (s, [], [p]) := by
    unfold reconcile_tracked
    simp [hl]
  have hguard : ¬ s.max_opened_files < ([p] : List String).length := by
    simp only [List.length_singleton]
    omega
  have hopen : open_new_files disk mode s [p] =
      ({ s with recently_closed := s.recently_closed.filter (· ≠ p), opened_files := aset s.opened_files p (freshFileState p (disk p)) },
        [Msg.didOpen p (disk p) 0 (some mode)]) := by
    rfl
  set s1 : ManagerState := { s with recently_closed := s.recently_closed.filter (· ≠ p), opened_files := aset s.opened_files p (freshFileState p (disk p)) } with hs1
  have hlook1 : alookup s1.opened_files p = some (freshFileState p (disk p)) := by
    rw [hs1]
    dsimp only
    rw [alookup_aset, if_pos rfl]
  have hnotrem : ∀ rc, p ∉ ((keys s1.opened_files).filter
      (fun q => decide (q ∉ ([p] : List String)))).take rc := by
    intro rc hmem
    have := List.of_mem_filter ((List.take_sublist _ _).subset hmem)
    simp at this
  cases hev : evict_overflow s1 [p] with
  | error e =>
    exfalso
    unfold evict_overflow at hev
    by_cases hrc : s1.opened_files.length - s1.max_opened_files = 0
    · rw [if_pos hrc] at hev
      cases hev
    · rw [if_neg hrc] at hev
      have htracked : ∀ q ∈ ((keys s1.opened_files).filter
          (fun q => decide (q ∉ ([p] : List String)))).take
          (s1.opened_files.length - s1.max_opened_files),
          (alookup s1.opened_files q).isSome = true := by
        intro q hq
        rw [alookup_isSome_iff_mem_keys]
        exact (List.filter_sublist _).subset ((List.take_sublist _ _).subset hq)
      obtain ⟨s3, msgs3, hok⟩ := close_files_ok_of_tracked true htracked
      rw [hok] at hev
      cases hev
  | ok pair =>
    obtain ⟨s3, msgs3⟩ := pair
    refine ⟨s3, [] ++ [Msg.didOpen p (disk p) 0 (some mode)] ++ msgs3, ?_, ?_, ?_⟩
    · unfold open_files
      rw [if_neg hguard, hrec]
      dsimp only
      rw [hopen]
      dsimp only
      rw [hev]
    · unfold evict_overflow at hev
      by_cases hrc : s1.opened_files.length - s1.max_opened_files = 0
      · rw [if_pos hrc] at hev
        simp only [Except.ok.injEq, Prod.mk.injEq] at hev
        rw [← hev.1]
        exact hlook1
      · rw [if_neg hrc] at hev
        obtain ⟨_, clook, _, _⟩ := close_files_ok hev
        rw [clook p, if_neg (hnotrem _)]
        exact hlook1
    · simp

end FM

/-- C5 counterexample: a reachable state (a failed `waitForDiagnostics`
leaves `error` stored and `complete` true with an empty cached diagnostics
list) on which `get_diagnostics` performs no wait but returns the stored
error as a synthesized diagnostic — not the cached diagnostics list, which
is empty. -/
theorem C5_counterexample :
    ∃ st : FileState, alookup errorAfterFailedWait.opened_files "a.lean" = some st ∧
      st.complete = true ∧ st.diagnostics = [] ∧
      FM.get_diagnostics exApply exDisk (fun _ => FM.WaitOutcome.futureOk)
          errorAfterFailedWait "a.lean" =
        .ok (errorAfterFailedWait, [], [{ message := "boom" }]) ∧
      ([{ message := "boom" }] : List Diagnostic) ≠ [] := by
  refine ⟨{ uri := "a.lean", content := "", version := 0, diagnostics := [], diagnostics_version := -1, processing := false, error := some "boom", fatal_error := false, complete := true, close_pending := false, close_ready := false, dependency_rebuild_attempted := false }, ?_, ?_, ?_, ?_, ?_⟩
  · decide
  · decide
  · decide
  · rfl
  · decide

/-- C5 (amended): `get_diagnostics` opens the file if untracked (sending a
`didOpen`); if `complete` is already true it performs no protocol round
trip (no message is sent, the state is unchanged) and returns the
selection applied to the cached state — the stored error if set, else a
single synthesized fatal-error diagnostic if `fatal_error` fired with no
diagnostics, else the cached diagnostics; otherwise it runs the
diagnostics wait (sending `waitForDiagnostics` unless the entry check
already completes the file) and returns the same selection of the
post-wait state. -/
theorem C5_get_diagnostics_selection :
    (∀ (applyChanges : String → List DocumentContentChange → String)
      (disk : String → String) (outcome : String → FM.WaitOutcome)
      (s : ManagerState) (p : String) (st : FileState),
      alookup s.opened_files p = some st → st.complete = true →
      FM.get_diagnostics applyChanges disk outcome s p =
        .ok (s, [], FM.selectDiags st)) ∧
    (∀ (applyChanges : String → List DocumentContentChange → String)
      (disk : String → String) (outcome : String → FM.WaitOutcome)
      (s : ManagerState) (p : String) (st : FileState),
      alookup s.opened_files p = some st → st.complete = false →
      ∃ s2 msgs st2,
        FM.get_diagnostics applyChanges disk outcome s p =
          .ok (s2, msgs, FM.selectDiags st2) ∧
        alookup s2.opened_files p = some st2 ∧
        ((st.processing = false ∧ st.version ≤ st.diagnostics_version) ∨
          msgs = [Msg.waitForDiagnostics p st.version])) ∧
    (∀ (applyChanges : String → List DocumentContentChange → String)
      (disk : String → String) (outcome : String → FM.WaitOutcome)
      (s : ManagerState) (p : String),
      alookup s.opened_files p = none → 1 ≤ s.max_opened_files →
      ∃ s2 msgs st2,
        FM.get_diagnostics applyChanges disk outcome s p =
          .ok (s2, msgs, FM.selectDiags st2) ∧
        alookup s2.opened_files p = some st2 ∧
        Msg.didOpen p (disk p) 0 (some "never") ∈ msgs) := by
  refine ⟨?_, ?_, ?_⟩
  · intro applyChanges disk outcome s p st hl hc
    unfold FM.get_diagnostics
    rw [hl]
    simp only [Option.isNone_some, Bool.false_eq_true, if_false]
    rw [hl]
    dsimp only
    rw [if_pos hc]
  · intro applyChanges disk outcome s p st hl hc
    obtain ⟨s2, msgs, st2, hwait, hst2, hcase⟩ := FM.wait_single_facts outcome hl hc
    refine ⟨s2, msgs, st2, ?_, hst2, hcase⟩
    unfold FM.get_diagnostics
    rw [hl]
    simp only [Option.isNone_some, Bool.false_eq_true, if_false]
    rw [hl]
    dsimp only
    rw [if_neg (by rw [hc]; simp), hwait]
    dsimp only
    rw [hst2]
    dsimp only
    rw [List.nil_append]
  · intro applyChanges disk outcome s p hl hmax
    obtain ⟨s1, msgs1, hopen, hfresh, hmem⟩ :=
      FM.open_files_untracked_single applyChanges disk "never" false hl hmax
    have hcfresh : (freshFileState p (disk p)).complete = false := rfl
    obtain ⟨s2, msgs2, st2, hwait, hst2, _⟩ := FM.wait_single_facts outcome hfresh hcfresh
    refine ⟨s2, msgs1 ++ msgs2, st2, ?_, hst2, List.mem_append.mpr (Or.inl hmem)⟩
    unfold FM.get_diagnostics
    rw [hl]
    simp only [Option.isNone_none, if_true]
    rw [hopen]
    dsimp only
    rw [hfresh]
    dsimp only
    rw [if_neg (by rw [hcfresh]; simp), hwait]
    dsimp only
    rw [hst2]

theorem C5_witness :
    (alookup exMgr.opened_files "a.lean" = some exFile ∧ exFile.complete = false) ∧
    (∃ s2 msgs st2,
      FM.get_diagnostics exApply exDisk (fun _ => FM.WaitOutcome.futureOk)
          exMgr "a.lean" = .ok (s2, msgs, FM.selectDiags st2) ∧
      alookup s2.opened_files "a.lean" = some st2 ∧
      ((exFile.processing = false ∧ exFile.version ≤ exFile.diagnostics_version) ∨
        msgs = [Msg.waitForDiagnostics "a.lean" exFile.version])) :=
  ⟨⟨by decide, by decide⟩,
    C5_get_diagnostics_selection.2.1 exApply exDisk
      (fun _ => FM.WaitOutcome.futureOk) exMgr "a.lean" exFile
      (by decide) (by decide)⟩

end leanclient
